import Mathlib

/-!
Verification development for the `lal-checkers` abstract-interpretation
engine (the Basic IR tooling of `lalcheck/irs/basic/tools.py`, the
libadalang frontend `lalcheck/irs/basic/frontends/lal.py`, and the
checkers `null_dereference.py`, `invalid_discriminant.py`,
`check_variants.py`).

The Python source is shallowly embedded:
* IR expression nodes (`tree.py` style) become the inductive `Expr`; each
  node carries a `ref : Nat` standing for the Python object's identity,
  and an optional type hint (`Option Nat`).
* Python dict environments become insertion-ordered association lists.
* Abstract domain values have an abstract type `V`; a node's model entry
  bundles the functions the source looks up in the model.
* Fallible operations return `Option` / `Except`; Python exception
  propagation becomes `Except` error propagation.
-/

namespace LalCheckers

/-- Basic IR expressions (identifier, literal, unary and binary
operation), as traversed by the visitors of `tools.py`.  `ref` is a
surrogate for the identity of the Python node object (model dictionaries
and environments are keyed by it), `hint` is the frontend-attached
`type_hint` when present, `op` is the operator symbol
(`un_op.sym` / `bin_op.sym`), and literal values are coded as `Nat`. -/
inductive Expr where
  | ident (ref : Nat) (hint : Option Nat)
  | lit (ref : Nat) (val : Nat) (hint : Option Nat)
  | unexpr (ref : Nat) (op : String) (e : Expr) (hint : Option Nat)
  | binexpr (ref : Nat) (op : String) (lhs rhs : Expr) (hint : Option Nat)
deriving DecidableEq

/-- The node-identity surrogate of an expression node. -/
def Expr.ref : Expr → Nat
  | .ident r _ => r
  | .lit r _ _ => r
  | .unexpr r _ _ _ => r
  | .binexpr r _ _ _ _ => r

/-- The `type_hint` data of an expression node (`none` when untyped). -/
def Expr.hint : Expr → Option Nat
  | .ident _ h => h
  | .lit _ _ h => h
  | .unexpr _ _ _ h => h
  | .binexpr _ _ _ _ h => h

/-- A Python dict from identifier nodes to abstract values, modelled as
an insertion-ordered association list keyed by the identifier node's
`ref`. -/
abbrev Env (V : Type) := List (Nat × V)

/-- Dict read `env[ident]` (first matching key; keys are unique in dicts). -/
def envLookup {V : Type} : Env V → Nat → Option V
  | [], _ => none
  | (k, v) :: rest, r => if k = r then some v else envLookup rest r

/-- Dict write `env[ident] = v`: replaces the value of an existing key in
place, appends a fresh binding otherwise (Python dicts keep insertion
order on update). -/
def envUpdate {V : Type} : Env V → Nat → V → Env V
  | [], r, v => [(r, v)]
  | (k, w) :: rest, r, v =>
      if k = r then (k, v) :: rest else (k, w) :: envUpdate rest r v

/-- Abstract-domain operations used by the solver: `meet` and the
emptiness test, as exposed by the domain object stored in the model. -/
structure DomOps (V : Type) where
  meet : V → V → V
  is_empty : V → Bool

/-- The model information attached to one IR node, as consumed by
`ExprEvaluator` and `ExprSolver` (`tools.py`): the node's domain, the
forward definition and inverse definition of its operation, and the
literal builder.  In Python the `Bunch` holds the fields relevant to the
node's kind; here all fields are present and each node kind reads only
its own. -/
structure SolverEntry (V : Type) where
  domain : DomOps V
  definitionUn : V → V
  definitionBin : V → V → V
  inverseUn : V → V → Option V
  inverseBin : V → V → V → Option (V × V)
  builder : Nat → V

/-- A model as used by the evaluator and the solver: a total assignment
of entries to node identities (the Python code may only be invoked on
expressions whose every node has a model entry). -/
abbrev SModel (V : Type) := Nat → SolverEntry V

namespace ExprEvaluator

/-- `ExprEvaluator.eval` (tools.py lines 234-254): forward abstract
evaluation.  `visit_ident` reads the environment, `visit_binexpr` and
`visit_unexpr` evaluate operands and apply the model's forward
definition, `visit_lit` applies the literal builder.  An identifier
missing from the environment raises `KeyError` in Python; the embedding
is only used on environments binding every identifier of the expression
(the `Inhabited` default is never reached in the theorems below). -/
def eval {V : Type} [Inhabited V] (m : SModel V) : Expr → Env V → V
  | .ident r _, env => (envLookup env r).getD default
  | .binexpr r _ lhs rhs _, env =>
      (m r).definitionBin (eval m lhs env) (eval m rhs env)
  | .unexpr r _ e _, env => (m r).definitionUn (eval m e env)
  | .lit r v _, _ => (m r).builder v

end ExprEvaluator

namespace ExprSolver

/-- The visit methods of `ExprSolver` (tools.py lines 287-316), fused
into one structural recursion.  The Python methods mutate the dict
`env` in place and return a feasibility boolean; the embedding threads
the dict explicitly and returns the pair (feasible?, mutated dict).

* `visit_ident` (287-290): `env[ident] = dom.meet(env[ident], expected);
  return True`.
* `visit_binexpr` (292-304): forward-evaluate both operands, apply the
  inverse definition to `(expected, lhs_val, rhs_val)`; `None` means
  infeasible; otherwise recurse into `lhs` then (short-circuit `and`)
  into `rhs`.
* `visit_unexpr` (306-311): same with a single operand.
* `visit_lit` (313-316): feasible iff `meet(expected, lit_val)` is
  non-empty; the environment is left untouched. -/
def visit {V : Type} [Inhabited V] (m : SModel V) :
    Expr → Env V → V → Bool × Env V
  | .ident r _, env, expected =>
      let dom := (m r).domain
      (true, envUpdate env r (dom.meet ((envLookup env r).getD default) expected))
  | .binexpr r _ lhs rhs _, env, expected =>
      let lhs_val := ExprEvaluator.eval m lhs env
      let rhs_val := ExprEvaluator.eval m rhs env
      match (m r).inverseBin expected lhs_val rhs_val with
      | none => (false, env)
      | some (expected_lhs, expected_rhs) =>
          let res1 := visit m lhs env expected_lhs
          if res1.1 then visit m rhs res1.2 expected_rhs else (false, res1.2)
  | .unexpr r _ e _, env, expected =>
      let expr_val := ExprEvaluator.eval m e env
      match (m r).inverseUn expected expr_val with
      | none => (false, env)
      | some expected_expr => visit m e env expected_expr
  | .lit r v h, env, expected =>
      let lit_dom := (m r).domain
      let lit_val := ExprEvaluator.eval m (.lit r v h) env
      (!(lit_dom.is_empty (lit_dom.meet expected lit_val)), env)

/-- `ExprSolver.solve` (tools.py lines 270-285): copy the environment,
run the backward pass with the boolean domain's true element as the
expected value, and return the narrowed copy, or the empty dict `{}`
when the pass reports infeasibility.  `btrue` stands for
`boolean_ops.true` (module `lalcheck/domain_ops/boolean_ops.py`, not
under `src/`); it is a parameter of the embedding. -/
def solve {V : Type} [Inhabited V] (m : SModel V) (btrue : V)
    (expr : Expr) (env : Env V) : Env V :=
  let new_env := env
  let res := visit m expr new_env btrue
  if res.1 then res.2 else []

end ExprSolver

/-- A heap of Python dict objects: addresses map to association lists,
`next` is the next fresh address.  Used to express which dict objects
`ExprSolver.solve` mutates. -/
structure PyHeap (V : Type) where
  dicts : Nat → Env V
  next : Nat

/-- Point update of a heap assignment. -/
def updD {V : Type} (f : Nat → Env V) (a : Nat) (e : Env V) : Nat → Env V :=
  fun n => if n = a then e else f n

/-- `ExprSolver.solve` with Python dict references made explicit.  The
caller passes the address `a` of its environment dict; `env.copy()`
allocates a fresh dict holding the same bindings; the visit mutates only
that copy; the returned address is the copy on success, and a freshly
allocated empty dict `{}` on infeasibility.  The functional behaviour of
the visit is `ExprSolver.visit`, which touches no dict but the one it is
handed. -/
def solveWithHeap {V : Type} [Inhabited V] (m : SModel V) (btrue : V)
    (expr : Expr) (st : PyHeap V) (a : Nat) : PyHeap V × Nat :=
  let copyA := st.next
  let st1 : PyHeap V := ⟨updD st.dicts copyA (st.dicts a), st.next + 1⟩
  let res := ExprSolver.visit m expr (st1.dicts copyA) btrue
  let st2 : PyHeap V := ⟨updD st1.dicts copyA res.2, st1.next⟩
  if res.1 then (st2, copyA)
  else (⟨updD st2.dicts st2.next [], st2.next + 1⟩, st2.next)

/-! ### A concrete sample domain, used to instantiate the generic
theorems.  It is the four-element boolean lattice (bottom, true, false,
top) with intersection as meet. -/

/-- Elements of a four-point boolean abstract domain. -/
inductive BoolD where
  | bot | tt | ff | top
deriving DecidableEq

instance : Inhabited BoolD := ⟨BoolD.top⟩

/-- Meet (set intersection) of the four-point boolean domain. -/
def BoolD.meet : BoolD → BoolD → BoolD
  | .bot, _ => .bot
  | _, .bot => .bot
  | .top, b => b
  | b, .top => b
  | .tt, .tt => .tt
  | .ff, .ff => .ff
  | .tt, .ff => .bot
  | .ff, .tt => .bot

/-- Emptiness test of the four-point boolean domain. -/
def BoolD.is_empty : BoolD → Bool
  | .bot => true
  | _ => false

/-- A sample solver model over `BoolD` whose inverse definitions always
fail. -/
def exEntry : SolverEntry BoolD where
  domain := ⟨BoolD.meet, BoolD.is_empty⟩
  definitionUn := fun v => v
  definitionBin := fun _ _ => BoolD.top
  inverseUn := fun _ _ => none
  inverseBin := fun _ _ _ => none
  builder := fun _ => BoolD.tt

/-- The sample model assigns `exEntry` to every node. -/
def exModel : SModel BoolD := fun _ => exEntry

/-! ### Claim C1 -/

/-- C1, counterexample.  Claim C1 states that when backward propagation
reaches an identifier whose narrowed value (the meet with the expected
value) is the empty element, `ExprSolver.solve` returns its infeasible
result, the empty environment.  At the concrete input below the meet of
the identifier's value `ff` with the expected value `tt` is empty, yet
`solve` returns the narrowed one-binding environment, not the empty
dict: `visit_ident` returns `True` unconditionally (tools.py line 290),
so identifiers can never trigger the infeasible result. -/
theorem c1_counterexample :
    ExprSolver.solve exModel BoolD.tt (Expr.ident 0 none) [(0, BoolD.ff)] =
      [(0, BoolD.bot)] ∧
    (exModel 0).domain.is_empty
      ((exModel 0).domain.meet BoolD.ff BoolD.tt) = true ∧
    ([(0, BoolD.bot)] : Env BoolD) ≠ ([] : Env BoolD) := by
  refine ⟨rfl, rfl, by decide⟩

/-- C1, amended.  When backward constraint propagation reaches an
identifier, the identifier's value in the environment is narrowed by
meeting it with the expected abstract value, and the visit reports
feasibility unconditionally: even when the meet is the empty element the
solver does not report the assumption infeasible, and `solve` returns
the narrowed environment (the binding holds the empty element) rather
than the empty environment. -/
theorem c1_ident_narrows_always_feasible :
    ∀ (V : Type) [Inhabited V] (m : SModel V) (btrue : V) (r : Nat)
      (h : Option Nat) (env : Env V) (v : V),
      envLookup env r = some v →
      (∀ expected, ExprSolver.visit m (.ident r h) env expected =
        (true, envUpdate env r ((m r).domain.meet v expected))) ∧
      ExprSolver.solve m btrue (.ident r h) env =
        envUpdate env r ((m r).domain.meet v btrue) := by
  intro V _ m btrue r h env v hv
  constructor
  · intro expected
    simp [ExprSolver.visit, hv]
  · simp [ExprSolver.solve, ExprSolver.visit, hv]

/-- C1, witness for the amended theorem at a concrete input. -/
theorem c1_ident_narrows_always_feasible_witness :
    ExprSolver.solve exModel BoolD.tt (Expr.ident 0 none) [(0, BoolD.ff)] =
      envUpdate [(0, BoolD.ff)] 0 ((exModel 0).domain.meet BoolD.ff BoolD.tt) :=
  (c1_ident_narrows_always_feasible BoolD exModel BoolD.tt 0 none
    [(0, BoolD.ff)] BoolD.ff rfl).2

/-! ### Claim C8 -/

/-- C8.  Backward propagation through a binary (resp. unary) expression:
the solver first forward-evaluates the operand(s) under the current
environment, applies the model's inverse definition to the expected
value and those current operand values, reports the whole expression
infeasible when the inverse returns no solution, and otherwise recurses
into each operand with its derived expected value, reporting infeasible
exactly when some operand recursion reports infeasible (the right
operand is visited on the environment as narrowed by the left one, and
is skipped when the left recursion already failed). -/
theorem c8_inverse_propagation :
    ∀ (V : Type) [Inhabited V] (m : SModel V) (r : Nat) (op : String)
      (lhs rhs e : Expr) (h : Option Nat) (env : Env V) (expected : V),
      ((m r).inverseBin expected (ExprEvaluator.eval m lhs env)
          (ExprEvaluator.eval m rhs env) = none →
        ExprSolver.visit m (.binexpr r op lhs rhs h) env expected =
          (false, env)) ∧
      (∀ el er,
        (m r).inverseBin expected (ExprEvaluator.eval m lhs env)
            (ExprEvaluator.eval m rhs env) = some (el, er) →
        ((ExprSolver.visit m (.binexpr r op lhs rhs h) env expected).1 = false ↔
          ((ExprSolver.visit m lhs env el).1 = false ∨
            ((ExprSolver.visit m lhs env el).1 = true ∧
              (ExprSolver.visit m rhs
                (ExprSolver.visit m lhs env el).2 er).1 = false)))) ∧
      ((m r).inverseUn expected (ExprEvaluator.eval m e env) = none →
        ExprSolver.visit m (.unexpr r op e h) env expected = (false, env)) ∧
      (∀ ee, (m r).inverseUn expected (ExprEvaluator.eval m e env) = some ee →
        ExprSolver.visit m (.unexpr r op e h) env expected =
          ExprSolver.visit m e env ee) := by
  intro V _ m r op lhs rhs e h env expected
  have hbin : ExprSolver.visit m (.binexpr r op lhs rhs h) env expected =
      match (m r).inverseBin expected (ExprEvaluator.eval m lhs env)
          (ExprEvaluator.eval m rhs env) with
      | none => (false, env)
      | some (el, er) =>
          let res1 := ExprSolver.visit m lhs env el
          if res1.1 then ExprSolver.visit m rhs res1.2 er
          else (false, res1.2) := rfl
  have hun : ExprSolver.visit m (.unexpr r op e h) env expected =
      match (m r).inverseUn expected (ExprEvaluator.eval m e env) with
      | none => (false, env)
      | some ee => ExprSolver.visit m e env ee := rfl
  refine ⟨?_, ?_, ?_, ?_⟩
  · intro hnone
    rw [hbin, hnone]
  · intro el er hsome
    rcases hv : ExprSolver.visit m lhs env el with ⟨okL, envL⟩
    rw [hbin, hsome]
    simp only [hv]
    cases okL
    · simp
    · simp
  · intro hnone
    rw [hun, hnone]
  · intro ee hsome
    rw [hun, hsome]

/-- C8, witness: at the sample model the inverse definition returns no
solution, and the binary visit reports infeasibility without narrowing. -/
theorem c8_inverse_propagation_witness :
    ExprSolver.visit exModel
        (Expr.binexpr 2 "+" (Expr.ident 0 none) (Expr.lit 1 5 none) none)
        [(0, BoolD.tt)] BoolD.tt =
      (false, [(0, BoolD.tt)]) :=
  (c8_inverse_propagation BoolD exModel 2 "+" (Expr.ident 0 none)
    (Expr.lit 1 5 none) (Expr.ident 0 none) none [(0, BoolD.tt)]
    BoolD.tt).1 rfl

/-! ### Claim C9 -/

/-- C9.  When the solver reaches a literal it judges feasibility exactly
by whether the meet of the literal's concretized value (what the model's
builder makes of the literal) with the expected value is non-empty, and
it leaves every identifier binding of the environment untouched. -/
theorem c9_lit_meet_check :
    ∀ (V : Type) [Inhabited V] (m : SModel V) (r v : Nat) (h : Option Nat)
      (env : Env V) (expected : V),
      (ExprSolver.visit m (.lit r v h) env expected).2 = env ∧
      ((ExprSolver.visit m (.lit r v h) env expected).1 = true ↔
        (m r).domain.is_empty
          ((m r).domain.meet expected ((m r).builder v)) = false) := by
  intro V _ m r v h env expected
  constructor
  · rfl
  · simp [ExprSolver.visit, ExprEvaluator.eval]

/-! ### Claim C10 -/

/-- C10.  `ExprSolver.solve` never mutates the environment dict passed
to it: it works on a copy (`env.copy()`, tools.py line 282), so after
the call the caller's dict holds exactly the bindings it held before,
also when the solver reports infeasibility by returning a fresh empty
dict.  The returned dict is moreover never the caller's. -/
theorem c10_solve_frame :
    ∀ (V : Type) [Inhabited V] (m : SModel V) (btrue : V) (expr : Expr)
      (st : PyHeap V) (a : Nat),
      a < st.next →
      ((solveWithHeap m btrue expr st a).1.dicts a = st.dicts a ∧
        (solveWithHeap m btrue expr st a).2 ≠ a) := by
  intro V _ m btrue expr st a ha
  have h1 : a ≠ st.next := by omega
  have h2 : a ≠ st.next + 1 := by omega
  have h3 : ¬ st.next = a := by omega
  have h4 : ¬ st.next + 1 = a := by omega
  rcases hok : (ExprSolver.visit m expr (st.dicts a) btrue).1 with _ | _
  · constructor
    · simp [solveWithHeap, hok, updD, h1, h2]
    · simp [solveWithHeap, hok, updD, h4]
  · constructor
    · simp [solveWithHeap, hok, updD, h1]
    · simp [solveWithHeap, hok, updD, h3]

/-- C10, witness at a concrete heap: after a run of the solver the
caller's dict is unchanged. -/
theorem c10_solve_frame_witness :
    ((solveWithHeap exModel BoolD.tt (Expr.ident 0 none)
        (⟨fun _ => [(0, BoolD.ff)], 1⟩ : PyHeap BoolD) 0).1.dicts 0 =
      [(0, BoolD.ff)] ∧
      (solveWithHeap exModel BoolD.tt (Expr.ident 0 none)
        (⟨fun _ => [(0, BoolD.ff)], 1⟩ : PyHeap BoolD) 0).2 ≠ 0) :=
  c10_solve_frame BoolD exModel BoolD.tt (Expr.ident 0 none)
    ⟨fun _ => [(0, BoolD.ff)], 1⟩ 0 (by decide)

/-! ### Checker result filtering (claim C2)

The three checkers share one pattern: evaluate the checked expression at
every purpose-tagged assume node, obtaining `(trace, value-set)` pairs,
then keep the pairs whose value set contains the boolean-false concrete
value, recording whether the value set was a singleton.  The embedding
takes the evaluated pairs as input (the output of `eval_expr_at` /
`eval_at`) and mirrors the final list comprehensions. -/

/-- The `DerefCheck` purpose (purpose.py lines 25-34): carries the
dereferenced expression in its `expr` attribute. -/
structure DerefCheckP where
  expr : Expr
deriving DecidableEq

/-- The filtering step of `find_null_derefs`
(null_dereference.py lines 150-157): from the evaluated
`(trace, purpose, value)` triples, keep those whose value set contains
`False` and store `(trace, purpose.expr, len(value) == 1)`. -/
def find_null_derefs {T C : Type} [DecidableEq C] (falseVal : C)
    (derefed_values : List (T × DerefCheckP × Finset C)) :
    List (T × Expr × Bool) :=
  derefed_values.filterMap fun tpv =>
    if falseVal ∈ tpv.2.2 then some (tpv.1, tpv.2.1.expr, tpv.2.2.card == 1)
    else none

/-- The filtering step of `find_invalid_accesses`
(invalid_discriminant.py lines 159-166): same pattern, keeping the whole
purpose object (type `P`). -/
def find_invalid_accesses {T P C : Type} [DecidableEq C] (falseVal : C)
    (exist_check_values : List (T × P × Finset C)) : List (T × P × Bool) :=
  exist_check_values.filterMap fun tpv =>
    if falseVal ∈ tpv.2.2 then some (tpv.1, tpv.2.1, tpv.2.2.card == 1)
    else none

/-- The filtering step of `check_variants`
(check_variants.py lines 138-145): keeps triples whose value set
contains `lits.FALSE`, with `len(value) == 1` as the precision flag. -/
def check_variants_infeasibles {T P C : Type} [DecidableEq C]
    (falseVal : C) (exist_check_values : List (T × P × Finset C)) :
    List (T × P × Bool) :=
  exist_check_values.filterMap fun tpv =>
    if falseVal ∈ tpv.2.2 then some (tpv.1, tpv.2.1, tpv.2.2.card == 1)
    else none

/-- C2.  For every `(trace, value-set)` pair obtained by evaluating the
checked expression at a purpose-tagged assume node, each checker reports
a finding for that trace exactly when the value set contains the
boolean-false concrete element, and the finding is classified definite
(`true`) exactly when the value set is a singleton, potential otherwise.
Stated as a complete membership characterization of the reported list
for all three checkers. -/
theorem c2_checker_reports_false_and_precision :
    (∀ (T C : Type) [DecidableEq C] (falseVal : C)
        (pairs : List (T × DerefCheckP × Finset C)) (t : T) (e : Expr)
        (b : Bool),
      (t, e, b) ∈ find_null_derefs falseVal pairs ↔
        ∃ pu v, (t, pu, v) ∈ pairs ∧ pu.expr = e ∧ falseVal ∈ v ∧
          b = (v.card == 1)) ∧
    (∀ (T P C : Type) [DecidableEq C] (falseVal : C)
        (pairs : List (T × P × Finset C)) (t : T) (p : P) (b : Bool),
      (t, p, b) ∈ find_invalid_accesses falseVal pairs ↔
        ∃ v, (t, p, v) ∈ pairs ∧ falseVal ∈ v ∧ b = (v.card == 1)) ∧
    (∀ (T P C : Type) [DecidableEq C] (falseVal : C)
        (pairs : List (T × P × Finset C)) (t : T) (p : P) (b : Bool),
      (t, p, b) ∈ check_variants_infeasibles falseVal pairs ↔
        ∃ v, (t, p, v) ∈ pairs ∧ falseVal ∈ v ∧ b = (v.card == 1)) := by
  refine ⟨?_, ?_, ?_⟩
  · intro T C _ falseVal pairs t e b
    simp only [find_null_derefs, List.mem_filterMap]
    constructor
    · rintro ⟨⟨t0, pu0, v0⟩, hmem, hf⟩
      by_cases hin : falseVal ∈ v0
      · simp only [hin, if_pos, Option.some.injEq, Prod.mk.injEq] at hf
        obtain ⟨h1, h2, h3⟩ := hf
        exact ⟨pu0, v0, h1 ▸ hmem, h2, hin, h3.symm⟩
      · simp [hin] at hf
    · rintro ⟨pu, v, hmem, he, hin, hb⟩
      exact ⟨(t, pu, v), hmem, by simp [hin, he, hb]⟩
  · intro T P C _ falseVal pairs t p b
    simp only [find_invalid_accesses, List.mem_filterMap]
    constructor
    · rintro ⟨⟨t0, pu0, v0⟩, hmem, hf⟩
      by_cases hin : falseVal ∈ v0
      · simp only [hin, if_pos, Option.some.injEq, Prod.mk.injEq] at hf
        obtain ⟨h1, h2, h3⟩ := hf
        exact ⟨v0, h1 ▸ h2 ▸ hmem, hin, h3.symm⟩
      · simp [hin] at hf
    · rintro ⟨v, hmem, hin, hb⟩
      exact ⟨(t, p, v), hmem, by simp [hin, hb]⟩
  · intro T P C _ falseVal pairs t p b
    simp only [check_variants_infeasibles, List.mem_filterMap]
    constructor
    · rintro ⟨⟨t0, pu0, v0⟩, hmem, hf⟩
      by_cases hin : falseVal ∈ v0
      · simp only [hin, if_pos, Option.some.injEq, Prod.mk.injEq] at hf
        obtain ⟨h1, h2, h3⟩ := hf
        exact ⟨v0, h1 ▸ h2 ▸ hmem, hin, h3.symm⟩
      · simp [hin] at hf
    · rintro ⟨v, hmem, hin, hb⟩
      exact ⟨(t, p, v), hmem, by simp [hin, hb]⟩

/-! ### The Basic IR statements and program traversal

Statements of the Basic IR (`tree.py` style): the atomic statements
(assign, read, use, assume) and the structured ones (split, loop).
`Models.of` walks the statement/expression trees of its programs and
collects every node carrying a type hint. -/

/-- Atomic IR statements: these are the statements the CFG builder turns
into single program points and stores as a node's originating IR node. -/
inductive Atom where
  | assign (var : Expr) (val : Expr)
  | read (var : Expr)
  | use (var : Expr)
  | assume (e : Expr)
deriving DecidableEq

/-- IR statements: atomic statements, the two-branch conditional
(`SplitStmt`) and the loop (`LoopStmt`). -/
inductive Stmt where
  | atom (a : Atom)
  | split (fst_stmts snd_stmts : List Stmt)
  | loop (stmts : List Stmt)

/-- A program is its statement list; `Models.of` takes several. -/
abbrev Program := List Stmt

/-- All nodes of an expression tree, the root included. -/
def Expr.subexprs : Expr → List Expr
  | .ident r h => [.ident r h]
  | .lit r v h => [.lit r v h]
  | .unexpr r op e h => .unexpr r op e h :: e.subexprs
  | .binexpr r op l rr h => .binexpr r op l rr h :: (l.subexprs ++ rr.subexprs)

/-- The expression nodes reachable from one atomic statement. -/
def atom_sub : Atom → List Expr
  | .assign x v => x.subexprs ++ v.subexprs
  | .read x => x.subexprs
  | .use x => x.subexprs
  | .assume e => e.subexprs

/-- All expression nodes of a statement list. -/
def all_exprs : List Stmt → List Expr
  | [] => []
  | .atom a :: rest => atom_sub a ++ all_exprs rest
  | .split f s :: rest => all_exprs f ++ all_exprs s ++ all_exprs rest
  | .loop b :: rest => all_exprs b ++ all_exprs rest

/-- All expression nodes of several programs. -/
def progs_exprs : List Program → List Expr
  | [] => []
  | p :: rest => all_exprs p ++ progs_exprs rest

/-- Modelled from the spec: `visitors.findall(prog, has_type_hint)`
(module `visitors.py` is not under `src/`) returns every node of the
given programs that carries a type hint ("For every node in the given
programs that carries a type hint"). -/
def typeables (progs : List Program) : List Expr :=
  (progs_exprs progs).filter fun e => e.hint.isSome

/-! ### Models: typer/interpreter caches and model construction
(`Models` of tools.py, lines 97-219)

Type hints, types, domains, definitions and builders are coded as `Nat`
tokens; equality of tokens stands for Python object identity.  The typer
`from_hint` and the type interpreter `from_type` may allocate fresh
objects at every call, which is modelled by threading an allocation
counter through them; the memoization caches of `_hint_to_type` and
`_type_to_interp` are what makes repeated resolutions return the
identical instance. -/

/-- A type interpretation: the 4-tuple
`(domain, domain_defs, domain_inv_defs, domain_builder)` unpacked by
`Models.of`.  Definition providers map an operator symbol and a domain
signature to a definition, or `none`. -/
structure Interp where
  dom : Nat
  defs : String → List Nat → Option Nat
  inv_defs : String → List Nat → Option Nat
  builder : Nat

/-- The two collaborator functions a `Models` object is built from.  The
second argument is the allocation counter (the functions may create
fresh instances). -/
structure ModelsCtx where
  from_hint : Nat → Nat → Nat × Nat
  from_type : Nat → Nat → Interp × Nat

/-- The memoization caches of `_hint_to_type` and `_type_to_interp`,
plus the allocation counter. -/
structure MemoSt where
  hint_cache : List (Nat × Nat)
  type_cache : List (Nat × Interp)
  fresh : Nat

/-- `Models._hint_to_type` (tools.py lines 117-121): memoized
`typer.from_hint`. -/
def hint_to_type (ctx : ModelsCtx) (st : MemoSt) (h : Nat) : Nat × MemoSt :=
  match envLookup st.hint_cache h with
  | some t => (t, st)
  | none =>
      let (t, f1) := ctx.from_hint h st.fresh
      (t, { st with hint_cache := st.hint_cache ++ [(h, t)], fresh := f1 })

/-- `Models._type_to_interp` (tools.py lines 123-127): memoized
`type_interpreter.from_type`. -/
def type_to_interp (ctx : ModelsCtx) (st : MemoSt) (t : Nat) :
    Interp × MemoSt :=
  match envLookup st.type_cache t with
  | some i => (i, st)
  | none =>
      let (i, f1) := ctx.from_type t st.fresh
      (i, { st with type_cache := st.type_cache ++ [(t, i)], fresh := f1 })

/-- `Models._typeable_to_interp` (tools.py lines 129-130): compose the
two caches on a node's type hint. -/
def typeable_to_interp (ctx : ModelsCtx) (st : MemoSt) (h : Nat) :
    Interp × MemoSt :=
  let (t, st1) := hint_to_type ctx st h
  type_to_interp ctx st1 t

/-- The accumulator of the first loop of `Models.of` (tools.py lines
192-208): per-node domains, the collected definition providers (a Python
set, embedded as a list, which only weakens the dedup — success or
failure of the aggregate lookup is unchanged), the builders dict keyed
by domain, threaded with the memo caches. -/
structure OfState where
  node_domains : List (Expr × Nat)
  def_providers : List (String → List Nat → Option Nat)
  inv_def_providers : List (String → List Nat → Option Nat)
  builders : List (Nat × Nat)
  memo : MemoSt

/-- First loop of `Models.of`: for every typeable node, resolve its
interpretation and record domain, providers and builder.  The `none`
hint case cannot arise on the output of `typeables` and leaves the state
unchanged. -/
def loop1 (ctx : ModelsCtx) : List Expr → OfState → OfState
  | [], st => st
  | n :: rest, st =>
      match n.hint with
      | none => loop1 ctx rest st
      | some h =>
          let (interp, memo1) := typeable_to_interp ctx st.memo h
          loop1 ctx rest
            { node_domains := st.node_domains ++ [(n, interp.dom)]
              def_providers := st.def_providers ++ [interp.defs]
              inv_def_providers := st.inv_def_providers ++ [interp.inv_defs]
              builders := envUpdate st.builders interp.dom interp.builder
              memo := memo1 }

/-- Lookup of a node's recorded domain by node identity
(`node_domains[node]`). -/
def nd_lookup : List (Expr × Nat) → Nat → Option Nat
  | [], _ => none
  | (n, d) :: rest, r => if n.ref = r then some d else nd_lookup rest r

/-- Model-construction errors: `LookupError` raised by the aggregated
provider (carrying the offending operator name and domain signature,
tools.py lines 178-180), and `KeyError` from a dict access on a missing
key. -/
inductive MErr where
  | lookup_err (name : String) (sig : List Nat)
  | key_err
deriving DecidableEq

/-- `Models._aggregate_provider` (tools.py lines 171-182): try every
collected provider in turn, return the first definition found, raise a
`LookupError` naming the operator and signature when none is found. -/
def aggregate_provider :
    List (String → List Nat → Option Nat) → String → List Nat →
    Except MErr Nat
  | [], name, sig => .error (.lookup_err name sig)
  | p :: rest, name, sig =>
      match p name sig with
      | some d => .ok d
      | none => aggregate_provider rest name sig

/-- One model entry as built by the `Models.visit_*` methods (tools.py
lines 132-165): idents get their domain, literals the domain and
builder, unary/binary expressions the domain plus forward and inverse
definitions. -/
inductive MEntry where
  | identE (domain : Nat)
  | litE (domain : Nat) (builder : Nat)
  | unE (domain : Nat) (definition : Nat) (inverse : Nat)
  | binE (domain : Nat) (definition : Nat) (inverse : Nat)
deriving DecidableEq

/-- The domain stored in a model entry. -/
def MEntry.domain : MEntry → Nat
  | .identE d => d
  | .litE d _ => d
  | .unE d _ _ => d
  | .binE d _ _ => d

/-- The per-node dispatch of the second loop of `Models.of`: build the
entry of one node given its recorded domain.  Operand domains are read
from `node_domains` (a missing operand is Python's `KeyError`), unary
signatures are `(expr_dom, dom)`, binary ones `(lhs_dom, rhs_dom, dom)`,
and definition lookups go through the aggregated providers. -/
def visit_node (nds : List (Expr × Nat))
    (defsP invP : List (String → List Nat → Option Nat))
    (bldrs : List (Nat × Nat)) : Expr → Nat → Except MErr MEntry
  | .ident _ _, d => .ok (.identE d)
  | .lit _ _ _, d =>
      match envLookup bldrs d with
      | some b => .ok (.litE d b)
      | none => .error .key_err
  | .unexpr _ op e _, d =>
      match nd_lookup nds e.ref with
      | none => .error .key_err
      | some ed => do
          let df ← aggregate_provider defsP op [ed, d]
          let iv ← aggregate_provider invP op [ed, d]
          return .unE d df iv
  | .binexpr _ op l rr _, d =>
      match nd_lookup nds l.ref, nd_lookup nds rr.ref with
      | some ld, some rd => do
          let df ← aggregate_provider defsP op [ld, rd, d]
          let iv ← aggregate_provider invP op [ld, rd, d]
          return .binE d df iv
      | _, _ => .error .key_err

/-- Second loop of `Models.of` (tools.py lines 210-217): visit every
recorded node; the first raised error aborts construction; on success
the model has one entry per node, keyed by node identity. -/
def build_model (nds : List (Expr × Nat))
    (defsP invP : List (String → List Nat → Option Nat))
    (bldrs : List (Nat × Nat)) :
    List (Expr × Nat) → Except MErr (List (Nat × MEntry))
  | [] => .ok []
  | (n, d) :: rest => do
      let en ← visit_node nds defsP invP bldrs n d
      let m ← build_model nds defsP invP bldrs rest
      return (n.ref, en) :: m

namespace Models

/-- The state after the first loop of `Models.of`, starting from empty
caches. -/
def of_state (ctx : ModelsCtx) (progs : List Program) : OfState :=
  loop1 ctx (typeables progs) ⟨[], [], [], [], ⟨[], [], 0⟩⟩

/-- `Models.of` (tools.py lines 184-219): run both loops; the result is
the model dictionary, or the first raised error. -/
def of (ctx : ModelsCtx) (progs : List Program) :
    Except MErr (List (Nat × MEntry)) :=
  let st := of_state ctx progs
  build_model st.node_domains st.def_providers st.inv_def_providers
    st.builders st.node_domains

end Models

/-- Well-formedness of the input programs for model construction: node
identities are not reused across distinct typeable nodes (Python object
identity guarantees this). -/
def UniqueRefs (progs : List Program) : Prop :=
  ((typeables progs).map Expr.ref).Nodup

/-- Operand typedness of one node: the operands of a unary or binary
node carry type hints. -/
def wf_node : Expr → Prop
  | .unexpr _ _ e _ => e.hint.isSome = true
  | .binexpr _ _ l rr _ => l.hint.isSome = true ∧ rr.hint.isSome = true
  | _ => True

/-- Well-typedness of the input programs: every typeable unary/binary
node has typed operands (the frontend attaches hints to all
expressions). -/
def WFTyped (progs : List Program) : Prop :=
  ∀ n ∈ typeables progs, wf_node n

/-- `Models.of` needs a definition lookup for operator `op` at signature
`sig` on behalf of node `n`: `n` is a unary or binary node with `op`,
and `sig` is its domain signature as recorded by the first loop. -/
def needs_lookup (ctx : ModelsCtx) (progs : List Program) (n : Expr)
    (op : String) (sig : List Nat) : Prop :=
  (∃ r e h ed d, n = .unexpr r op e h ∧
      nd_lookup (Models.of_state ctx progs).node_domains e.ref = some ed ∧
      nd_lookup (Models.of_state ctx progs).node_domains n.ref = some d ∧
      sig = [ed, d]) ∨
  (∃ r l rr h ld rd d, n = .binexpr r op l rr h ∧
      nd_lookup (Models.of_state ctx progs).node_domains l.ref = some ld ∧
      nd_lookup (Models.of_state ctx progs).node_domains rr.ref = some rd ∧
      nd_lookup (Models.of_state ctx progs).node_domains n.ref = some d ∧
      sig = [ld, rd, d])

/-! ### Dictionary and cache lemmas -/

theorem envLookup_append_some {V : Type} {l : List (Nat × V)}
    (l2 : List (Nat × V)) {k : Nat} {v : V} (hv : envLookup l k = some v) :
    envLookup (l ++ l2) k = some v := by
  induction l with
  | nil => simp [envLookup] at hv
  | cons p rest ih =>
      rcases p with ⟨k0, v0⟩
      by_cases hk : k0 = k
      · simpa [envLookup, hk] using hv
      · simp only [envLookup, hk, if_false, List.cons_append] at hv ⊢
        exact ih hv

theorem envLookup_append_self {V : Type} {l : List (Nat × V)} {k : Nat}
    (hnone : envLookup l k = none) (v : V) :
    envLookup (l ++ [(k, v)]) k = some v := by
  induction l with
  | nil => simp [envLookup]
  | cons p rest ih =>
      rcases p with ⟨k0, v0⟩
      by_cases hk : k0 = k
      · simp [envLookup, hk] at hnone
      · simp only [envLookup, hk, if_false, List.cons_append] at hnone ⊢
        exact ih hnone

theorem envLookup_update_self {V : Type} (l : List (Nat × V)) (k : Nat)
    (v : V) : envLookup (envUpdate l k v) k = some v := by
  induction l with
  | nil => simp [envUpdate, envLookup]
  | cons p rest ih =>
      rcases p with ⟨k0, v0⟩
      by_cases hk : k0 = k
      · simp [envUpdate, envLookup, hk]
      · simp [envUpdate, envLookup, hk, ih]

theorem envLookup_update_isSome {V : Type} (l : List (Nat × V))
    (k k2 : Nat) (v : V) (hs : (envLookup l k2).isSome = true) :
    (envLookup (envUpdate l k v) k2).isSome = true := by
  induction l with
  | nil => simp [envLookup] at hs
  | cons p rest ih =>
      rcases p with ⟨k0, v0⟩
      by_cases hk : k0 = k
      · by_cases hk2 : k0 = k2 <;> simp_all [envUpdate, envLookup]
      · by_cases hk2 : k0 = k2 <;> simp_all [envUpdate, envLookup]

theorem hint_to_type_lookup (ctx : ModelsCtx) (st : MemoSt) (h : Nat) :
    envLookup (hint_to_type ctx st h).2.hint_cache h =
      some (hint_to_type ctx st h).1 := by
  unfold hint_to_type
  rcases hc : envLookup st.hint_cache h with _ | t
  · simp only [hc]
    exact envLookup_append_self hc _
  · simpa [hc] using hc

theorem hint_to_type_preserves (ctx : ModelsCtx) (st : MemoSt) (h : Nat)
    {k : Nat} {t0 : Nat} (hk : envLookup st.hint_cache k = some t0) :
    envLookup (hint_to_type ctx st h).2.hint_cache k = some t0 := by
  unfold hint_to_type
  rcases hc : envLookup st.hint_cache h with _ | t
  · simp only [hc]
    exact envLookup_append_some _ hk
  · simpa [hc] using hk

theorem hint_to_type_type_cache (ctx : ModelsCtx) (st : MemoSt) (h : Nat) :
    (hint_to_type ctx st h).2.type_cache = st.type_cache := by
  unfold hint_to_type
  rcases hc : envLookup st.hint_cache h with _ | t <;> simp [hc]

theorem type_to_interp_lookup (ctx : ModelsCtx) (st : MemoSt) (t : Nat) :
    envLookup (type_to_interp ctx st t).2.type_cache t =
      some (type_to_interp ctx st t).1 := by
  unfold type_to_interp
  rcases hc : envLookup st.type_cache t with _ | i
  · simp only [hc]
    exact envLookup_append_self hc _
  · simpa [hc] using hc

theorem type_to_interp_preserves (ctx : ModelsCtx) (st : MemoSt) (t : Nat)
    {k : Nat} {i0 : Interp} (hk : envLookup st.type_cache k = some i0) :
    envLookup (type_to_interp ctx st t).2.type_cache k = some i0 := by
  unfold type_to_interp
  rcases hc : envLookup st.type_cache t with _ | i
  · simp only [hc]
    exact envLookup_append_some _ hk
  · simpa [hc] using hk

theorem type_to_interp_hint_cache (ctx : ModelsCtx) (st : MemoSt)
    (t : Nat) : (type_to_interp ctx st t).2.hint_cache = st.hint_cache := by
  unfold type_to_interp
  rcases hc : envLookup st.type_cache t with _ | i <;> simp [hc]

theorem typeable_to_interp_post (ctx : ModelsCtx) (st : MemoSt) (h : Nat) :
    ∃ t, envLookup (typeable_to_interp ctx st h).2.hint_cache h = some t ∧
      envLookup (typeable_to_interp ctx st h).2.type_cache t =
        some (typeable_to_interp ctx st h).1 := by
  unfold typeable_to_interp
  refine ⟨(hint_to_type ctx st h).1, ?_, ?_⟩
  · rw [type_to_interp_hint_cache]
    exact hint_to_type_lookup ctx st h
  · exact type_to_interp_lookup ctx _ _

theorem typeable_to_interp_preserves_hint (ctx : ModelsCtx) (st : MemoSt)
    (h : Nat) {k t0 : Nat} (hk : envLookup st.hint_cache k = some t0) :
    envLookup (typeable_to_interp ctx st h).2.hint_cache k = some t0 := by
  unfold typeable_to_interp
  rw [type_to_interp_hint_cache]
  exact hint_to_type_preserves ctx st h hk

theorem typeable_to_interp_preserves_type (ctx : ModelsCtx) (st : MemoSt)
    (h : Nat) {k : Nat} {i0 : Interp}
    (hk : envLookup st.type_cache k = some i0) :
    envLookup (typeable_to_interp ctx st h).2.type_cache k = some i0 := by
  have heq : typeable_to_interp ctx st h =
      type_to_interp ctx (hint_to_type ctx st h).2 (hint_to_type ctx st h).1 :=
    rfl
  rw [heq]
  refine type_to_interp_preserves ctx _ _ ?_
  rw [hint_to_type_type_cache]
  exact hk

/-! ### First-loop invariants -/

/-- An entry of `node_domains` is consistent with the memo caches: its
domain is the one the final caches assign to its hint. -/
def ConsistentEntry (memo : MemoSt) (p : Expr × Nat) : Prop :=
  ∃ h t i, p.1.hint = some h ∧ envLookup memo.hint_cache h = some t ∧
    envLookup memo.type_cache t = some i ∧ p.2 = i.dom

theorem loop1_memo_hint_mono (ctx : ModelsCtx) (l : List Expr) :
    ∀ st k v, envLookup st.memo.hint_cache k = some v →
      envLookup (loop1 ctx l st).memo.hint_cache k = some v := by
  induction l with
  | nil => intro st k v hv; simpa [loop1] using hv
  | cons n rest ih =>
      intro st k v hv
      rcases hh : n.hint with _ | h
      · simpa [loop1, hh] using ih st k v hv
      · simp only [loop1, hh]
        exact ih _ k v (typeable_to_interp_preserves_hint ctx _ h hv)

theorem loop1_memo_type_mono (ctx : ModelsCtx) (l : List Expr) :
    ∀ st k v, envLookup st.memo.type_cache k = some v →
      envLookup (loop1 ctx l st).memo.type_cache k = some v := by
  induction l with
  | nil => intro st k v hv; simpa [loop1] using hv
  | cons n rest ih =>
      intro st k v hv
      rcases hh : n.hint with _ | h
      · simpa [loop1, hh] using ih st k v hv
      · simp only [loop1, hh]
        exact ih _ k v (typeable_to_interp_preserves_type ctx _ h hv)

theorem loop1_consistent (ctx : ModelsCtx) (l : List Expr) :
    ∀ st, (∀ p ∈ st.node_domains, ConsistentEntry st.memo p) →
      ∀ p ∈ (loop1 ctx l st).node_domains,
        ConsistentEntry (loop1 ctx l st).memo p := by
  induction l with
  | nil => intro st hst p hp; simpa [loop1] using hst p (by simpa [loop1] using hp)
  | cons n rest ih =>
      intro st hst p hp
      rcases hh : n.hint with _ | h
      · simp only [loop1, hh] at hp ⊢
        exact ih st hst p hp
      · simp only [loop1, hh] at hp ⊢
        refine ih _ ?_ p hp
        intro q hq
        rcases List.mem_append.mp hq with hq | hq
        · rcases hst q hq with ⟨h0, t0, i0, hq1, hq2, hq3, hq4⟩
          exact ⟨h0, t0, i0, hq1,
            typeable_to_interp_preserves_hint ctx _ h hq2,
            typeable_to_interp_preserves_type ctx _ h hq3, hq4⟩
        · rcases List.mem_singleton.mp hq with rfl
          rcases typeable_to_interp_post ctx st.memo h with ⟨t, ht1, ht2⟩
          exact ⟨h, t, _, hh, ht1, ht2, rfl⟩

theorem loop1_nodes_map (ctx : ModelsCtx) (l : List Expr) :
    ∀ st, ((loop1 ctx l st).node_domains).map Prod.fst =
      st.node_domains.map Prod.fst ++ l.filter (fun n => n.hint.isSome) := by
  induction l with
  | nil => intro st; simp [loop1]
  | cons n rest ih =>
      intro st
      rcases hh : n.hint with _ | h
      · rw [loop1, hh]
        simp only []
        rw [ih st, List.filter_cons_of_neg (by simp [hh])]
      · rw [loop1, hh]
        simp only []
        rw [ih, List.filter_cons_of_pos (by simp [hh])]
        simp

theorem loop1_builders (ctx : ModelsCtx) (l : List Expr) :
    ∀ st, (∀ p ∈ st.node_domains,
        (envLookup st.builders p.2).isSome = true) →
      ∀ p ∈ (loop1 ctx l st).node_domains,
        (envLookup (loop1 ctx l st).builders p.2).isSome = true := by
  induction l with
  | nil => intro st hst p hp; simpa [loop1] using hst p (by simpa [loop1] using hp)
  | cons n rest ih =>
      intro st hst p hp
      rcases hh : n.hint with _ | h
      · simp only [loop1, hh] at hp ⊢
        exact ih st hst p hp
      · simp only [loop1, hh] at hp ⊢
        refine ih _ ?_ p hp
        intro q hq
        rcases List.mem_append.mp hq with hq | hq
        · exact envLookup_update_isSome _ _ _ _ (hst q hq)
        · rcases List.mem_singleton.mp hq with rfl
          simp [envLookup_update_self]

/-! ### Node-domain lookup, aggregated providers, and the second loop -/

theorem nd_lookup_isSome_iff (nds : List (Expr × Nat)) (r : Nat) :
    (nd_lookup nds r).isSome = true ↔ r ∈ nds.map fun p => p.1.ref := by
  induction nds with
  | nil => simp [nd_lookup]
  | cons p rest ih =>
      rcases p with ⟨n0, d0⟩
      by_cases hr : n0.ref = r
      · simp [nd_lookup, hr]
      · simp [nd_lookup, hr, ih, Ne.symm hr]

theorem nd_lookup_of_mem_nodup :
    ∀ (nds : List (Expr × Nat)), ((nds.map fun p => p.1.ref)).Nodup →
      ∀ n d, (n, d) ∈ nds → nd_lookup nds n.ref = some d := by
  intro nds
  induction nds with
  | nil => intro _ n d h; simp at h
  | cons p rest ih =>
      rcases p with ⟨n0, d0⟩
      intro hnd n d hmem
      simp only [List.map_cons, List.nodup_cons] at hnd
      rcases List.mem_cons.mp hmem with heq | hmem2
      · rcases heq with ⟨rfl, rfl⟩
        · simp [nd_lookup]
      · have hne : n0.ref ≠ n.ref := by
          intro hcontra
          exact hnd.1 (hcontra ▸ List.mem_map.mpr ⟨(n, d), hmem2, rfl⟩)
        simp only [nd_lookup, hne, if_false]
        exact ih hnd.2 n d hmem2

theorem aggregate_provider_error :
    ∀ (ps : List (String → List Nat → Option Nat)) (name : String)
      (sig : List Nat) (e : MErr),
      aggregate_provider ps name sig = .error e →
      e = MErr.lookup_err name sig ∧ ∀ p ∈ ps, p name sig = none := by
  intro ps name sig
  induction ps with
  | nil =>
      intro e he
      simp only [aggregate_provider, Except.error.injEq] at he
      simp [← he]
  | cons p rest ih =>
      intro e he
      rcases hp : p name sig with _ | d
      · simp only [aggregate_provider, hp] at he
        rcases ih e he with ⟨h1, h2⟩
        refine ⟨h1, ?_⟩
        intro q hq
        rcases List.mem_cons.mp hq with rfl | hq2
        · exact hp
        · exact h2 q hq2
      · simp [aggregate_provider, hp] at he

theorem aggregate_provider_of_fails :
    ∀ (ps : List (String → List Nat → Option Nat)) (name : String)
      (sig : List Nat), (∀ p ∈ ps, p name sig = none) →
      aggregate_provider ps name sig = .error (.lookup_err name sig) := by
  intro ps name sig
  induction ps with
  | nil => intro _; rfl
  | cons p rest ih =>
      intro hall
      have hp : p name sig = none := hall p (by simp)
      simp only [aggregate_provider, hp]
      exact ih fun q hq => hall q (List.mem_cons_of_mem _ hq)

theorem visit_node_ok_domain (nds : List (Expr × Nat))
    (defsP invP : List (String → List Nat → Option Nat))
    (bldrs : List (Nat × Nat)) (n : Expr) (d : Nat) (en : MEntry)
    (hok : visit_node nds defsP invP bldrs n d = .ok en) :
    en.domain = d := by
  cases n with
  | ident r h =>
      simp only [visit_node, Except.ok.injEq] at hok
      rw [← hok]; rfl
  | lit r v h =>
      rcases hb : envLookup bldrs d with _ | b
      · simp [visit_node, hb] at hok
      · simp only [visit_node, hb, Except.ok.injEq] at hok
        rw [← hok]; rfl
  | unexpr r op e h =>
      rcases hed : nd_lookup nds e.ref with _ | ed
      · simp [visit_node, hed] at hok
      · rcases hdf : aggregate_provider defsP op [ed, d] with e1 | df
        · simp [visit_node, hed, hdf, Except.instMonad, Except.bind,
            Except.map] at hok
        · rcases hiv : aggregate_provider invP op [ed, d] with e2 | iv
          · simp [visit_node, hed, hdf, hiv, Except.instMonad, Except.bind,
              Except.map] at hok
          · simp [visit_node, hed, hdf, hiv, Except.instMonad, Except.bind,
              Except.map, pure, Except.pure] at hok
            rw [← hok]; rfl
  | binexpr r op l rr h =>
      rcases hld : nd_lookup nds l.ref with _ | ld
      · simp [visit_node, hld] at hok
      · rcases hrd : nd_lookup nds rr.ref with _ | rd
        · simp [visit_node, hld, hrd] at hok
        · rcases hdf : aggregate_provider defsP op [ld, rd, d] with e1 | df
          · simp [visit_node, hld, hrd, hdf, Except.instMonad, Except.bind,
              Except.map] at hok
          · rcases hiv : aggregate_provider invP op [ld, rd, d] with e2 | iv
            · simp [visit_node, hld, hrd, hdf, hiv, Except.instMonad,
                Except.bind, Except.map] at hok
            · simp [visit_node, hld, hrd, hdf, hiv, Except.instMonad,
                Except.bind, Except.map, pure, Except.pure] at hok
              rw [← hok]; rfl

theorem visit_node_error_cases (nds : List (Expr × Nat))
    (defsP invP : List (String → List Nat → Option Nat))
    (bldrs : List (Nat × Nat)) (n : Expr) (d : Nat) (e : MErr)
    (he : visit_node nds defsP invP bldrs n d = .error e) :
    e = .key_err ∨ ∃ op sig, e = .lookup_err op sig ∧
      ((∀ p ∈ defsP, p op sig = none) ∨ (∀ p ∈ invP, p op sig = none)) := by
  cases n with
  | ident r h => simp [visit_node] at he
  | lit r v h =>
      rcases hb : envLookup bldrs d with _ | b
      · simp only [visit_node, hb, Except.error.injEq] at he
        exact Or.inl he.symm
      · simp [visit_node, hb] at he
  | unexpr r op e0 h =>
      rcases hed : nd_lookup nds e0.ref with _ | ed
      · simp only [visit_node, hed, Except.error.injEq] at he
        exact Or.inl he.symm
      · rcases hdf : aggregate_provider defsP op [ed, d] with e1 | df
        · simp only [visit_node, hed, hdf, Except.instMonad, Except.bind,
            Except.map, Except.error.injEq] at he
          rcases aggregate_provider_error _ _ _ _ hdf with ⟨h1, h2⟩
          exact Or.inr ⟨op, [ed, d], he ▸ h1, Or.inl h2⟩
        · rcases hiv : aggregate_provider invP op [ed, d] with e2 | iv
          · simp only [visit_node, hed, hdf, hiv, Except.instMonad,
              Except.bind, Except.map, Except.error.injEq] at he
            rcases aggregate_provider_error _ _ _ _ hiv with ⟨h1, h2⟩
            exact Or.inr ⟨op, [ed, d], he ▸ h1, Or.inr h2⟩
          · simp [visit_node, hed, hdf, hiv, Except.instMonad, Except.bind,
              Except.map, pure, Except.pure] at he
  | binexpr r op l rr h =>
      rcases hld : nd_lookup nds l.ref with _ | ld
      · rcases hrd : nd_lookup nds rr.ref with _ | rd
        · simp only [visit_node, hld, hrd, Except.error.injEq] at he
          exact Or.inl he.symm
        · simp only [visit_node, hld, hrd, Except.error.injEq] at he
          exact Or.inl he.symm
      · rcases hrd : nd_lookup nds rr.ref with _ | rd
        · simp only [visit_node, hld, hrd, Except.error.injEq] at he
          exact Or.inl he.symm
        · rcases hdf : aggregate_provider defsP op [ld, rd, d] with e1 | df
          · simp only [visit_node, hld, hrd, hdf, Except.instMonad,
              Except.bind, Except.map, Except.error.injEq] at he
            rcases aggregate_provider_error _ _ _ _ hdf with ⟨h1, h2⟩
            exact Or.inr ⟨op, [ld, rd, d], he ▸ h1, Or.inl h2⟩
          · rcases hiv : aggregate_provider invP op [ld, rd, d] with e2 | iv
            · simp only [visit_node, hld, hrd, hdf, hiv, Except.instMonad,
                Except.bind, Except.map, Except.error.injEq] at he
              rcases aggregate_provider_error _ _ _ _ hiv with ⟨h1, h2⟩
              exact Or.inr ⟨op, [ld, rd, d], he ▸ h1, Or.inr h2⟩
            · simp [visit_node, hld, hrd, hdf, hiv, Except.instMonad,
                Except.bind, Except.map, pure, Except.pure] at he

theorem visit_node_fails_un (nds : List (Expr × Nat))
    (defsP invP : List (String → List Nat → Option Nat))
    (bldrs : List (Nat × Nat)) (r : Nat) (op : String) (e : Expr)
    (h : Option Nat) (d ed : Nat) (hed : nd_lookup nds e.ref = some ed)
    (hfail : (∀ p ∈ defsP, p op [ed, d] = none) ∨
      (∀ p ∈ invP, p op [ed, d] = none)) :
    ∃ e2, visit_node nds defsP invP bldrs (.unexpr r op e h) d =
      .error e2 := by
  simp only [visit_node, hed]
  rcases hfail with hfail | hfail
  · rw [aggregate_provider_of_fails defsP op [ed, d] hfail]
    exact ⟨_, rfl⟩
  · rcases hdf : aggregate_provider defsP op [ed, d] with e1 | df
    · exact ⟨e1, rfl⟩
    · rw [aggregate_provider_of_fails invP op [ed, d] hfail]
      exact ⟨_, rfl⟩

theorem visit_node_fails_bin (nds : List (Expr × Nat))
    (defsP invP : List (String → List Nat → Option Nat))
    (bldrs : List (Nat × Nat)) (r : Nat) (op : String) (l rr : Expr)
    (h : Option Nat) (d ld rd : Nat) (hld : nd_lookup nds l.ref = some ld)
    (hrd : nd_lookup nds rr.ref = some rd)
    (hfail : (∀ p ∈ defsP, p op [ld, rd, d] = none) ∨
      (∀ p ∈ invP, p op [ld, rd, d] = none)) :
    ∃ e2, visit_node nds defsP invP bldrs (.binexpr r op l rr h) d =
      .error e2 := by
  simp only [visit_node, hld, hrd]
  rcases hfail with hfail | hfail
  · rw [aggregate_provider_of_fails defsP op [ld, rd, d] hfail]
    exact ⟨_, rfl⟩
  · rcases hdf : aggregate_provider defsP op [ld, rd, d] with e1 | df
    · exact ⟨e1, rfl⟩
    · rw [aggregate_provider_of_fails invP op [ld, rd, d] hfail]
      exact ⟨_, rfl⟩

theorem build_model_ok_mem (nds : List (Expr × Nat))
    (defsP invP : List (String → List Nat → Option Nat))
    (bldrs : List (Nat × Nat)) :
    ∀ (l : List (Expr × Nat)) (m : List (Nat × MEntry)),
      build_model nds defsP invP bldrs l = .ok m →
      ((l.map fun p => p.1.ref).Nodup) →
      ∀ n d, (n, d) ∈ l → ∃ en,
        visit_node nds defsP invP bldrs n d = .ok en ∧
        envLookup m n.ref = some en := by
  intro l
  induction l with
  | nil => intro m _ _ n d h; simp at h
  | cons p rest ih =>
      rcases p with ⟨n0, d0⟩
      intro m hm hnd n d hmem
      rcases hv : visit_node nds defsP invP bldrs n0 d0 with e0 | en0
      · simp [build_model, hv, Except.instMonad, Except.bind] at hm
      rcases hr : build_model nds defsP invP bldrs rest with e1 | m1
      · simp [build_model, hv, hr, Except.instMonad, Except.bind] at hm
      have hmeq : m = (n0.ref, en0) :: m1 := by
        have := hm
        simp [build_model, hv, hr, Except.instMonad, Except.bind, pure,
          Except.pure] at this
        exact this.symm
      subst hmeq
      simp only [List.map_cons, List.nodup_cons] at hnd
      rcases List.mem_cons.mp hmem with heq | hmem2
      · rcases heq with ⟨rfl, rfl⟩
        exact ⟨en0, hv, by simp [envLookup]⟩
      · have hne : n0.ref ≠ n.ref := by
          intro hcontra
          exact hnd.1 (hcontra ▸ List.mem_map.mpr ⟨(n, d), hmem2, rfl⟩)
        rcases ih m1 hr hnd.2 n d hmem2 with ⟨en, hen1, hen2⟩
        exact ⟨en, hen1, by simp [envLookup, hne, hen2]⟩

theorem build_model_error_mem (nds : List (Expr × Nat))
    (defsP invP : List (String → List Nat → Option Nat))
    (bldrs : List (Nat × Nat)) :
    ∀ (l : List (Expr × Nat)) (e : MErr),
      build_model nds defsP invP bldrs l = .error e →
      ∃ n d, (n, d) ∈ l ∧
        visit_node nds defsP invP bldrs n d = .error e := by
  intro l
  induction l with
  | nil => intro e he; simp [build_model] at he
  | cons p rest ih =>
      rcases p with ⟨n0, d0⟩
      intro e he
      rcases hv : visit_node nds defsP invP bldrs n0 d0 with e0 | en0
      · have : e0 = e := by
          simpa [build_model, hv, Except.instMonad, Except.bind] using he
        exact ⟨n0, d0, by simp, this ▸ hv⟩
      rcases hr : build_model nds defsP invP bldrs rest with e1 | m1
      · have : e1 = e := by
          simpa [build_model, hv, hr, Except.instMonad, Except.bind] using he
        rcases ih e1 hr with ⟨n, d, hmem, hvn⟩
        exact ⟨n, d, List.mem_cons_of_mem _ hmem, this ▸ hvn⟩
      · exact absurd he (by simp [build_model, hv, hr, Except.instMonad,
          Except.bind, pure, Except.pure])

/-! ### Subexpression closure of the traversal -/

theorem Expr.mem_subexprs_self : ∀ e : Expr, e ∈ e.subexprs := by
  intro e
  cases e <;> simp [Expr.subexprs]

theorem Expr.subexprs_trans :
    ∀ e x y : Expr, x ∈ e.subexprs → y ∈ x.subexprs → y ∈ e.subexprs := by
  intro e
  induction e with
  | ident r h => intro x y hx hy; simp [Expr.subexprs] at hx; subst hx; simpa [Expr.subexprs] using hy
  | lit r v h => intro x y hx hy; simp [Expr.subexprs] at hx; subst hx; simpa [Expr.subexprs] using hy
  | unexpr r op e h ih =>
      intro x y hx hy
      simp only [Expr.subexprs, List.mem_cons] at hx ⊢
      rcases hx with rfl | hx
      · simpa [Expr.subexprs] using hy
      · exact Or.inr (ih x y hx hy)
  | binexpr r op l rr h ihl ihr =>
      intro x y hx hy
      simp only [Expr.subexprs, List.mem_cons, List.mem_append] at hx ⊢
      rcases hx with rfl | hx | hx
      · simpa [Expr.subexprs] using hy
      · exact Or.inr (Or.inl (ihl x y hx hy))
      · exact Or.inr (Or.inr (ihr x y hx hy))

theorem atom_sub_closed (a : Atom) :
    ∀ n x : Expr, n ∈ atom_sub a → x ∈ n.subexprs → x ∈ atom_sub a := by
  intro n x hn hx
  cases a with
  | assign v0 v1 =>
      simp only [atom_sub, List.mem_append] at hn ⊢
      rcases hn with hn | hn
      · exact Or.inl (Expr.subexprs_trans _ _ _ hn hx)
      · exact Or.inr (Expr.subexprs_trans _ _ _ hn hx)
  | read v0 => exact Expr.subexprs_trans _ _ _ hn hx
  | use v0 => exact Expr.subexprs_trans _ _ _ hn hx
  | assume e0 => exact Expr.subexprs_trans _ _ _ hn hx

theorem all_exprs_closed :
    ∀ (l : List Stmt) (n x : Expr), n ∈ all_exprs l → x ∈ n.subexprs →
      x ∈ all_exprs l := by
  intro l
  induction l using all_exprs.induct with
  | case1 => intro n x hn _; simp [all_exprs] at hn
  | case2 a rest ih =>
      intro n x hn hx
      simp only [all_exprs, List.mem_append] at hn ⊢
      rcases hn with hn | hn
      · exact Or.inl (atom_sub_closed a n x hn hx)
      · exact Or.inr (ih n x hn hx)
  | case3 f s rest ih1 ih2 ih3 =>
      intro n x hn hx
      simp only [all_exprs, List.mem_append] at hn ⊢
      rcases hn with (hn | hn) | hn
      · exact Or.inl (Or.inl (ih1 n x hn hx))
      · exact Or.inl (Or.inr (ih2 n x hn hx))
      · exact Or.inr (ih3 n x hn hx)
  | case4 b rest ih1 ih2 =>
      intro n x hn hx
      simp only [all_exprs, List.mem_append] at hn ⊢
      rcases hn with hn | hn
      · exact Or.inl (ih1 n x hn hx)
      · exact Or.inr (ih2 n x hn hx)

theorem progs_exprs_closed :
    ∀ (progs : List Program) (n x : Expr), n ∈ progs_exprs progs →
      x ∈ n.subexprs → x ∈ progs_exprs progs := by
  intro progs
  induction progs with
  | nil => intro n x hn _; simp [progs_exprs] at hn
  | cons p rest ih =>
      intro n x hn hx
      simp only [progs_exprs, List.mem_append] at hn ⊢
      rcases hn with hn | hn
      · exact Or.inl (all_exprs_closed p n x hn hx)
      · exact Or.inr (ih n x hn hx)

theorem typeables_closed {progs : List Program} {n x : Expr}
    (hn : n ∈ typeables progs) (hx : x ∈ n.subexprs)
    (hh : x.hint.isSome = true) : x ∈ typeables progs := by
  have hn2 := (List.mem_filter.mp hn).1
  exact List.mem_filter.mpr ⟨progs_exprs_closed progs n x hn2 hx, by simpa⟩

/-! ### `Models.of_state` facts -/

theorem of_state_nodes (ctx : ModelsCtx) (progs : List Program) :
    (Models.of_state ctx progs).node_domains.map Prod.fst =
      typeables progs := by
  unfold Models.of_state
  rw [loop1_nodes_map]
  simp only [List.nil_append]
  exact List.filter_eq_self.mpr fun a ha => (List.mem_filter.mp ha).2

theorem of_state_refs_nodup (ctx : ModelsCtx) (progs : List Program)
    (hu : UniqueRefs progs) :
    (((Models.of_state ctx progs).node_domains.map fun p =>
      p.1.ref)).Nodup := by
  have hmm : ((Models.of_state ctx progs).node_domains.map fun p =>
      p.1.ref) =
      ((Models.of_state ctx progs).node_domains.map Prod.fst).map
        Expr.ref := by
    simp [List.map_map, Function.comp]
  rw [hmm, of_state_nodes]
  exact hu

theorem of_state_mem_nodes (ctx : ModelsCtx) {progs : List Program}
    {n : Expr} (hn : n ∈ typeables progs) :
    ∃ d, (n, d) ∈ (Models.of_state ctx progs).node_domains := by
  have := of_state_nodes ctx progs
  rw [← this] at hn
  rcases List.mem_map.mp hn with ⟨p, hp, hp2⟩
  exact ⟨p.2, by rwa [← hp2, Prod.mk.eta]⟩

theorem of_state_mem_typeables {ctx : ModelsCtx} {progs : List Program}
    {n : Expr} {d : Nat}
    (hn : (n, d) ∈ (Models.of_state ctx progs).node_domains) :
    n ∈ typeables progs := by
  rw [← of_state_nodes ctx progs]
  exact List.mem_map.mpr ⟨(n, d), hn, rfl⟩

theorem of_state_consistent (ctx : ModelsCtx) (progs : List Program) :
    ∀ p ∈ (Models.of_state ctx progs).node_domains,
      ConsistentEntry (Models.of_state ctx progs).memo p := by
  unfold Models.of_state
  exact loop1_consistent ctx (typeables progs) _ (by intro p hp; simp at hp)

theorem of_state_builders (ctx : ModelsCtx) (progs : List Program) :
    ∀ p ∈ (Models.of_state ctx progs).node_domains,
      (envLookup (Models.of_state ctx progs).builders p.2).isSome = true := by
  unfold Models.of_state
  exact loop1_builders ctx (typeables progs) _ (by intro p hp; simp at hp)

theorem of_state_nd_lookup {ctx : ModelsCtx} {progs : List Program}
    (hu : UniqueRefs progs) {n : Expr} {d : Nat}
    (hn : (n, d) ∈ (Models.of_state ctx progs).node_domains) :
    nd_lookup (Models.of_state ctx progs).node_domains n.ref = some d :=
  nd_lookup_of_mem_nodup _ (of_state_refs_nodup ctx progs hu) n d hn

theorem of_state_nd_lookup_isSome (ctx : ModelsCtx) {progs : List Program}
    {n : Expr} (hn : n ∈ typeables progs) :
    ∃ d, nd_lookup (Models.of_state ctx progs).node_domains n.ref =
      some d := by
  rcases of_state_mem_nodes ctx hn with ⟨d0, hd0⟩
  have hs : (nd_lookup (Models.of_state ctx progs).node_domains
      n.ref).isSome = true :=
    (nd_lookup_isSome_iff _ _).mpr
      (List.mem_map.mpr ⟨(n, d0), hd0, rfl⟩)
  exact Option.isSome_iff_exists.mp hs

/-- Under well-typedness, no node visit of `Models.of` raises a
`KeyError`: operand domains and literal builders are always found. -/
theorem of_visit_no_key_err (ctx : ModelsCtx) (progs : List Program)
    (hw : WFTyped progs) :
    ∀ n d, (n, d) ∈ (Models.of_state ctx progs).node_domains →
      ∀ e, visit_node (Models.of_state ctx progs).node_domains
          (Models.of_state ctx progs).def_providers
          (Models.of_state ctx progs).inv_def_providers
          (Models.of_state ctx progs).builders n d = .error e →
        e ≠ .key_err := by
  intro n d hmem e herr
  have htyp : n ∈ typeables progs := of_state_mem_typeables hmem
  cases n with
  | ident r h => simp [visit_node] at herr
  | lit r v h =>
      rcases Option.isSome_iff_exists.mp
        (of_state_builders ctx progs _ hmem) with ⟨b, hb⟩
      simp [visit_node, hb] at herr
  | unexpr r op e0 h =>
      have hwf : e0.hint.isSome = true := hw _ htyp
      have he0 : e0 ∈ typeables progs :=
        typeables_closed htyp
          (by simp [Expr.subexprs, Expr.mem_subexprs_self]) hwf
      rcases of_state_nd_lookup_isSome ctx he0 with ⟨ed, hed⟩
      simp only [visit_node, hed] at herr
      rcases hdf : aggregate_provider
          (Models.of_state ctx progs).def_providers op [ed, d] with e1 | df
      · rw [hdf] at herr
        simp only [Except.instMonad, Except.bind, Except.map,
          Except.error.injEq] at herr
        intro hke
        rcases aggregate_provider_error _ _ _ _ hdf with ⟨h1, -⟩
        simp_all
      · rcases hiv : aggregate_provider
            (Models.of_state ctx progs).inv_def_providers op [ed, d]
            with e2 | iv
        · rw [hdf, hiv] at herr
          simp only [Except.instMonad, Except.bind, Except.map,
            Except.error.injEq] at herr
          intro hke
          rcases aggregate_provider_error _ _ _ _ hiv with ⟨h1, -⟩
          simp_all
        · rw [hdf, hiv] at herr
          simp [Except.instMonad, Except.bind, Except.map, pure,
            Except.pure] at herr
  | binexpr r op l rr h =>
      rcases hw _ htyp with ⟨hwl, hwr⟩
      have hl : l ∈ typeables progs :=
        typeables_closed htyp
          (by simp [Expr.subexprs, Expr.mem_subexprs_self]) hwl
      have hr : rr ∈ typeables progs :=
        typeables_closed htyp
          (by simp [Expr.subexprs, Expr.mem_subexprs_self]) hwr
      rcases of_state_nd_lookup_isSome ctx hl with ⟨ld, hld⟩
      rcases of_state_nd_lookup_isSome ctx hr with ⟨rd, hrd⟩
      simp only [visit_node, hld, hrd] at herr
      rcases hdf : aggregate_provider
          (Models.of_state ctx progs).def_providers op [ld, rd, d]
          with e1 | df
      · rw [hdf] at herr
        simp only [Except.instMonad, Except.bind, Except.map,
          Except.error.injEq] at herr
        intro hke
        rcases aggregate_provider_error _ _ _ _ hdf with ⟨h1, -⟩
        simp_all
      · rcases hiv : aggregate_provider
            (Models.of_state ctx progs).inv_def_providers op [ld, rd, d]
            with e2 | iv
        · rw [hdf, hiv] at herr
          simp only [Except.instMonad, Except.bind, Except.map,
            Except.error.injEq] at herr
          intro hke
          rcases aggregate_provider_error _ _ _ _ hiv with ⟨h1, -⟩
          simp_all
        · rw [hdf, hiv] at herr
          simp [Except.instMonad, Except.bind, Except.map, pure,
            Except.pure] at herr

theorem Models.of_eq (ctx : ModelsCtx) (progs : List Program) :
    Models.of ctx progs =
      build_model (Models.of_state ctx progs).node_domains
        (Models.of_state ctx progs).def_providers
        (Models.of_state ctx progs).inv_def_providers
        (Models.of_state ctx progs).builders
        (Models.of_state ctx progs).node_domains := rfl

/-! ### Claim C4 -/

/-- C4.  When `Models.of` needs an operation definition (or inverse
definition) for an operator and domain signature and no registered
provider returns one, model construction fails with the `LookupError`
raised by the aggregated provider, an error value carrying an operator
and signature on which every corresponding provider fails; and whenever
construction succeeds, the model has an entry for every typeable node —
never a silently missing one.  (`UniqueRefs`: node identities are not
shared between distinct nodes; `WFTyped`: operands of typed operation
nodes are typed, which rules out the unrelated dict `KeyError`.) -/
theorem c4_of_lookup_error_or_total :
    ∀ (ctx : ModelsCtx) (progs : List Program), UniqueRefs progs →
      WFTyped progs →
      ((∀ n op sig, n ∈ typeables progs →
          needs_lookup ctx progs n op sig →
          ((∀ p ∈ (Models.of_state ctx progs).def_providers,
              p op sig = none) ∨
            (∀ p ∈ (Models.of_state ctx progs).inv_def_providers,
              p op sig = none)) →
          ∃ op2 sig2,
            Models.of ctx progs = .error (.lookup_err op2 sig2) ∧
            ((∀ p ∈ (Models.of_state ctx progs).def_providers,
                p op2 sig2 = none) ∨
              (∀ p ∈ (Models.of_state ctx progs).inv_def_providers,
                p op2 sig2 = none))) ∧
        (∀ m, Models.of ctx progs = .ok m →
          ∀ n ∈ typeables progs, (envLookup m n.ref).isSome = true)) := by
  intro ctx progs hu hw
  constructor
  · intro n op sig hnt hneeds hfail
    rcases of_state_mem_nodes ctx hnt with ⟨d0, hd0⟩
    have hnd0 : nd_lookup (Models.of_state ctx progs).node_domains n.ref =
        some d0 := of_state_nd_lookup hu hd0
    have hverr : ∃ e2,
        visit_node (Models.of_state ctx progs).node_domains
          (Models.of_state ctx progs).def_providers
          (Models.of_state ctx progs).inv_def_providers
          (Models.of_state ctx progs).builders n d0 = .error e2 := by
      rcases hneeds with ⟨r, e0, h, ed, d, rfl, hed, hnd, rfl⟩ |
        ⟨r, l, rr, h, ld, rd, d, rfl, hld, hrd, hnd, rfl⟩
      · have hdd : d = d0 := by
          rw [hnd0] at hnd; exact (Option.some.injEq ..▸ hnd).symm ▸ rfl
        subst hdd
        exact visit_node_fails_un _ _ _ _ r op e0 h d ed hed hfail
      · have hdd : d = d0 := by
          rw [hnd0] at hnd; exact (Option.some.injEq ..▸ hnd).symm ▸ rfl
        subst hdd
        exact visit_node_fails_bin _ _ _ _ r op l rr h d ld rd hld hrd hfail
    rcases hof : Models.of ctx progs with e | m
    · have hofeq : build_model (Models.of_state ctx progs).node_domains
          (Models.of_state ctx progs).def_providers
          (Models.of_state ctx progs).inv_def_providers
          (Models.of_state ctx progs).builders
          (Models.of_state ctx progs).node_domains = .error e := by
        rw [← Models.of_eq]; exact hof
      obtain ⟨n2, d2, hmem2, hv2⟩ := build_model_error_mem _ _ _ _ _ _ hofeq
      have hek := of_visit_no_key_err ctx progs hw n2 d2 hmem2 e hv2
      rcases visit_node_error_cases _ _ _ _ _ _ _ hv2 with hke | hlk
      · exact absurd hke hek
      · rcases hlk with ⟨op2, sig2, rfl, hfail2⟩
        exact ⟨op2, sig2, rfl, hfail2⟩
    · exfalso
      have hokeq : build_model (Models.of_state ctx progs).node_domains
          (Models.of_state ctx progs).def_providers
          (Models.of_state ctx progs).inv_def_providers
          (Models.of_state ctx progs).builders
          (Models.of_state ctx progs).node_domains = .ok m := by
        rw [← Models.of_eq]; exact hof
      obtain ⟨en, hen, -⟩ := build_model_ok_mem _ _ _ _ _ m hokeq
        (of_state_refs_nodup ctx progs hu) n d0 hd0
      rcases hverr with ⟨e2, hve⟩
      rw [hve] at hen
      exact Except.noConfusion hen
  · intro m hok n hnt
    rcases of_state_mem_nodes ctx hnt with ⟨d0, hd0⟩
    have hokeq : build_model (Models.of_state ctx progs).node_domains
        (Models.of_state ctx progs).def_providers
        (Models.of_state ctx progs).inv_def_providers
        (Models.of_state ctx progs).builders
        (Models.of_state ctx progs).node_domains = .ok m := by
      rw [← Models.of_eq]; exact hok
    obtain ⟨en, -, hl⟩ := build_model_ok_mem _ _ _ _ _ m hokeq
      (of_state_refs_nodup ctx progs hu) n d0 hd0
    simp [hl]

/-! ### Claim C7 -/

/-- C7.  The `Models` caches are idempotent: resolving the same type
hint again returns the identical type instance and cache state, and
resolving the same type again returns the identical interpretation;
consequently, in a model built by `Models.of`, any two nodes carrying
equal type hints are assigned the identical shared domain instance. -/
theorem c7_caches_idempotent_shared_domains :
    ∀ (ctx : ModelsCtx),
      (∀ st h t st2, hint_to_type ctx st h = (t, st2) →
        hint_to_type ctx st2 h = (t, st2)) ∧
      (∀ st tp i st2, type_to_interp ctx st tp = (i, st2) →
        type_to_interp ctx st2 tp = (i, st2)) ∧
      (∀ progs m n1 n2, UniqueRefs progs → Models.of ctx progs = .ok m →
        n1 ∈ typeables progs → n2 ∈ typeables progs →
        n1.hint = n2.hint →
        ∃ e1 e2, envLookup m n1.ref = some e1 ∧
          envLookup m n2.ref = some e2 ∧ e1.domain = e2.domain) := by
  intro ctx
  refine ⟨?_, ?_, ?_⟩
  · intro st h t st2 heq
    have hl : envLookup st2.hint_cache h = some t := by
      have hpost := hint_to_type_lookup ctx st h
      rw [heq] at hpost
      exact hpost
    simp [hint_to_type, hl]
  · intro st tp i st2 heq
    have hl : envLookup st2.type_cache tp = some i := by
      have hpost := type_to_interp_lookup ctx st tp
      rw [heq] at hpost
      exact hpost
    simp [type_to_interp, hl]
  · intro progs m n1 n2 hu hok h1t h2t hh
    rcases of_state_mem_nodes ctx h1t with ⟨d1, hd1⟩
    rcases of_state_mem_nodes ctx h2t with ⟨d2, hd2⟩
    rcases of_state_consistent ctx progs _ hd1 with
      ⟨hh1, t1, i1, e11, e12, e13, e14⟩
    rcases of_state_consistent ctx progs _ hd2 with
      ⟨hh2, t2, i2, e21, e22, e23, e24⟩
    simp only at e11 e21 e14 e24
    have hhh : hh1 = hh2 := by
      rw [hh] at e11
      rw [e11] at e21
      exact Option.some.inj e21
    subst hhh
    have htt : t1 = t2 := by
      rw [e12] at e22
      exact Option.some.inj e22
    subst htt
    have hii : i1 = i2 := by
      rw [e13] at e23
      exact Option.some.inj e23
    subst hii
    have hdd : d1 = d2 := by rw [e14, e24]
    have hokeq : build_model (Models.of_state ctx progs).node_domains
        (Models.of_state ctx progs).def_providers
        (Models.of_state ctx progs).inv_def_providers
        (Models.of_state ctx progs).builders
        (Models.of_state ctx progs).node_domains = .ok m := by
      rw [← Models.of_eq]; exact hok
    obtain ⟨en1, hv1, hl1⟩ := build_model_ok_mem _ _ _ _ _ m hokeq
      (of_state_refs_nodup ctx progs hu) n1 d1 hd1
    obtain ⟨en2, hv2, hl2⟩ := build_model_ok_mem _ _ _ _ _ m hokeq
      (of_state_refs_nodup ctx progs hu) n2 d2 hd2
    refine ⟨en1, en2, hl1, hl2, ?_⟩
    rw [visit_node_ok_domain _ _ _ _ _ _ _ hv1,
      visit_node_ok_domain _ _ _ _ _ _ _ hv2]
    exact hdd

/-! ### Concrete instances for the model-construction claims -/

/-- A provider with no definitions. -/
def wNone : String → List Nat → Option Nat := fun _ _ => none

/-- Sample identifier node. -/
def wId : Expr := .ident 0 (some 7)

/-- Sample literal node. -/
def wLit : Expr := .lit 1 5 (some 7)

/-- Sample binary node over `wId` and `wLit`. -/
def wBin : Expr := .binexpr 2 "+" wId wLit (some 7)

/-- A context whose interpreter registers no definitions at all. -/
def wCtx4 : ModelsCtx where
  from_hint := fun h n => (h, n)
  from_type := fun t n => (⟨t, wNone, wNone, 0⟩, n)

/-- A one-program input with a single typed binary expression. -/
def wProgs4 : List Program := [[Stmt.atom (.assume wBin)]]

theorem wProgs4_typeables : typeables wProgs4 = [wBin, wId, wLit] := by
  simp only [typeables, wProgs4, progs_exprs, all_exprs, atom_sub]
  rfl

theorem wProgs4_state : Models.of_state wCtx4 wProgs4 =
    { node_domains := [(wBin, 7), (wId, 7), (wLit, 7)]
      def_providers := [wNone, wNone, wNone]
      inv_def_providers := [wNone, wNone, wNone]
      builders := [(7, 0)]
      memo := { hint_cache := [(7, 7)],
                type_cache := [(7, ⟨7, wNone, wNone, 0⟩)], fresh := 0 } } := by
  unfold Models.of_state
  rw [wProgs4_typeables]
  rfl

/-- C4, witness: with no registered definitions, `Models.of` fails with
a `LookupError` carrying an operator and signature on which every
provider fails. -/
theorem c4_of_lookup_error_or_total_witness :
    ∃ op2 sig2, Models.of wCtx4 wProgs4 = .error (.lookup_err op2 sig2) ∧
      ((∀ p ∈ (Models.of_state wCtx4 wProgs4).def_providers,
          p op2 sig2 = none) ∨
        (∀ p ∈ (Models.of_state wCtx4 wProgs4).inv_def_providers,
          p op2 sig2 = none)) := by
  refine (c4_of_lookup_error_or_total wCtx4 wProgs4 ?_ ?_).1 wBin "+"
    [7, 7, 7] ?_ ?_ ?_
  · unfold UniqueRefs
    rw [wProgs4_typeables]
    decide
  · intro n hn
    rw [wProgs4_typeables] at hn
    simp only [List.mem_cons, List.not_mem_nil, or_false] at hn
    rcases hn with rfl | rfl | rfl
    · simp [wBin, wf_node, wId, wLit, Expr.hint]
    · simp [wId, wf_node]
    · simp [wLit, wf_node]
  · rw [wProgs4_typeables]
    simp
  · refine Or.inr ⟨2, wId, wLit, some 7, 7, 7, 7, rfl, ?_, ?_, ?_, rfl⟩ <;>
      rw [wProgs4_state] <;> rfl
  · refine Or.inl ?_
    intro p hp
    rw [wProgs4_state] at hp
    simp only [List.mem_cons, List.not_mem_nil, or_false, or_self] at hp
    subst hp
    rfl

/-- A context whose interpreter registers a definition for everything. -/
def wCtx7 : ModelsCtx where
  from_hint := fun h n => (h + 100, n + 1)
  from_type := fun t n => (⟨t, fun _ _ => some 1, fun _ _ => some 1, 0⟩,
    n + 1)

/-- A one-program input with two identifiers of the same type hint. -/
def wProgs7 : List Program :=
  [[Stmt.atom (.read (.ident 0 (some 7))), Stmt.atom (.read (.ident 1 (some 7)))]]

theorem wProgs7_typeables :
    typeables wProgs7 = [.ident 0 (some 7), .ident 1 (some 7)] := by
  simp only [typeables, wProgs7, progs_exprs, all_exprs, atom_sub]
  rfl

theorem wProgs7_of : Models.of wCtx7 wProgs7 =
    .ok [(0, MEntry.identE 107), (1, MEntry.identE 107)] := by
  rw [Models.of_eq]
  have hst : Models.of_state wCtx7 wProgs7 =
      loop1 wCtx7 [.ident 0 (some 7), .ident 1 (some 7)]
        ⟨[], [], [], [], ⟨[], [], 0⟩⟩ := by
    unfold Models.of_state
    rw [wProgs7_typeables]
  rw [hst]
  rfl

/-- C7, witness: the two same-hinted identifiers of `wProgs7` receive
the identical domain instance in the constructed model. -/
theorem c7_caches_idempotent_shared_domains_witness :
    ∃ e1 e2,
      envLookup [(0, MEntry.identE 107), (1, MEntry.identE 107)]
        (Expr.ident 0 (some 7)).ref = some e1 ∧
      envLookup [(0, MEntry.identE 107), (1, MEntry.identE 107)]
        (Expr.ident 1 (some 7)).ref = some e2 ∧
      e1.domain = e2.domain := by
  refine (c7_caches_idempotent_shared_domains wCtx7).2.2 wProgs7
    [(0, MEntry.identE 107), (1, MEntry.identE 107)]
    (Expr.ident 0 (some 7)) (Expr.ident 1 (some 7)) ?_ wProgs7_of ?_ ?_ rfl
  · unfold UniqueRefs
    rw [wProgs7_typeables]
    decide
  · rw [wProgs7_typeables]
    simp
  · rw [wProgs7_typeables]
    simp

/-! ### The CFG builder (`CFGBuilder` of tools.py, lines 13-94)

Fresh node names `"{prefix}{count}"` are embedded as a prefix tag plus
the per-prefix counter value (`KeyCounter`); `id` is the global
allocation index standing for the node object's identity. -/

/-- The name prefixes the builder passes to `build_node`. -/
inductive NPfx where
  | start | split_join | loop_start | loop_join | assign | read | use
  | assume
deriving DecidableEq

/-- A CFG node (`Digraph.Node`): its identity, its fresh name (prefix
and per-prefix counter), the `is_widening_point` flag and the
originating IR statement (`node` data key), `none` for synthesized
nodes. -/
structure CNode where
  id : Nat
  pfx : NPfx
  idx : Nat
  is_widening_point : Bool
  node : Option Atom
deriving DecidableEq

/-- A CFG edge (`Digraph.Edge`): a plain from→to pair (the source
fields are `frm` and `to`; `to` is a reserved token in Lean, so the
target field is `dst`). -/
structure CEdge where
  frm : CNode
  dst : CNode
deriving DecidableEq

/-- The digraph returned by `visit_program`. -/
structure Digraph where
  nodes : List CNode
  edges : List CEdge
deriving DecidableEq

/-- The builder's mutable state: collected nodes and edges, the
per-prefix `KeyCounter`, and the next free node identity. -/
structure BState where
  nodes : List CNode
  edges : List CEdge
  counter : NPfx → Nat
  next_id : Nat

/-- `KeyCounter.get_incr`: return the current count of a key and bump
it. -/
def get_incr (c : NPfx → Nat) (p : NPfx) : Nat × (NPfx → Nat) :=
  (c p, fun q => if q = p then c p + 1 else c q)

/-- `CFGBuilder.build_node` (tools.py lines 84-89): make a node with a
fresh name; it is not yet registered in the node list. -/
def build_node (s : BState) (p : NPfx) (wp : Bool) (orig : Option Atom) :
    CNode × BState :=
  (⟨s.next_id, p, (get_incr s.counter p).1, wp, orig⟩,
   { s with counter := (get_incr s.counter p).2, next_id := s.next_id + 1 })

/-- `CFGBuilder.register_and_link` (tools.py lines 91-94): append the
node to the node list and add one edge from every element of `froms` to
it. -/
def register_and_link (s : BState) (froms : List CNode) (n : CNode) :
    BState :=
  { s with nodes := s.nodes ++ [n],
           edges := s.edges ++ froms.map fun f => ⟨f, n⟩ }

/-- The lowering of one atomic statement: `visit_assign` / `visit_read`
/ `visit_use` / `visit_assume` (tools.py lines 59-77) differ only in the
fresh-name prefix; each builds a node carrying the IR statement and
links it from the current node. -/
def visit_atom (a : Atom) (cur : CNode) (s : BState) : BState × CNode :=
  let p := match a with
    | .assign .. => NPfx.assign
    | .read .. => NPfx.read
    | .use .. => NPfx.use
    | .assume .. => NPfx.assume
  let n := build_node s p false (some a)
  (register_and_link n.2 [cur] n.1, n.1)

/-- `CFGBuilder.visit_stmts` (tools.py lines 79-82) together with the
per-statement visits, fused into one recursion over the statement list:

* an atomic statement is lowered by `visit_atom` and the chain
  continues from its node;
* `visit_split` (lines 40-47): both branch statement lists are lowered
  from the same predecessor `cur`, a `split_join` node is built and
  linked from both branch ends, and the chain continues from the join;
* `visit_loop` (lines 49-57): a `loop_start` node is built with
  `is_widening_point := true`, the body is lowered from it, then
  `loop_start` is registered with edges from the predecessor and from
  the body end (the back-edge), a `loop_join` node is linked from
  `loop_start`, and the chain continues from the join. -/
def visit_stmts : List Stmt → CNode → BState → BState × CNode
  | [], cur, s => (s, cur)
  | .atom a :: rest, cur, s =>
      let r := visit_atom a cur s
      visit_stmts rest r.2 r.1
  | .split fst_stmts snd_stmts :: rest, cur, s =>
      let r1 := visit_stmts fst_stmts cur s
      let r2 := visit_stmts snd_stmts cur r1.1
      let j := build_node r2.1 .split_join false none
      visit_stmts rest j.1 (register_and_link j.2 [r1.2, r2.2] j.1)
  | .loop body :: rest, cur, s =>
      let w := build_node s .loop_start true none
      let r := visit_stmts body w.1 w.2
      let j := build_node r.1 .loop_join false none
      let s4 := register_and_link j.2 [cur, r.2] w.1
      visit_stmts rest j.1 (register_and_link s4 [w.1] j.1)

/-- `CFGBuilder.visit_program` (tools.py lines 31-38): reset the state,
build the `start` node, lower the statements from it, and return the
digraph with `start` appended to the node list. -/
def visit_program (stmts : List Stmt) : Digraph :=
  let s0 : BState := ⟨[], [], fun _ => 0, 0⟩
  let start := build_node s0 .start false none
  let r := visit_stmts stmts start.1 start.2
  ⟨r.1.nodes ++ [start.1], r.1.edges⟩

/-- The start node of every built CFG. -/
def start_node : CNode := ⟨0, .start, 0, false, none⟩

/-- A node has an incoming edge in an edge list. -/
def HasInc (E : List CEdge) (x : CNode) : Prop := ∃ e ∈ E, e.dst = x

/-- A node's widening flag agrees with being a loop-entry
(`loop_start`) node. -/
def WPiff (x : CNode) : Prop :=
  x.is_widening_point = true ↔ x.pfx = NPfx.loop_start

/-- One edge step within an edge list. -/
def EdgeRel (E : List CEdge) (a b : CNode) : Prop :=
  ∃ e ∈ E, e.frm = a ∧ e.dst = b

/-- Reachability along the edges of a list. -/
def Reach (E : List CEdge) : CNode → CNode → Prop :=
  Relation.ReflTransGen (EdgeRel E)

theorem Reach.mono {E F : List CEdge} (hEF : ∀ e ∈ E, e ∈ F)
    {a b : CNode} (h : Reach E a b) : Reach F a b :=
  Relation.ReflTransGen.mono
    (fun x y ⟨e, he, h1, h2⟩ => ⟨e, hEF e he, h1, h2⟩) h

/-- The builder-state growth invariant between a state and a later
state: nodes and edges only accumulate, identities only grow, every
added node has a fresh identity, satisfies the widening-iff-loop-entry
property and has an incoming edge, and every added edge points at a
fresh identity. -/
def StepOk (s s2 : BState) : Prop :=
  (∀ x ∈ s.nodes, x ∈ s2.nodes) ∧ (∀ e ∈ s.edges, e ∈ s2.edges) ∧
  s.next_id ≤ s2.next_id ∧
  (∀ x ∈ s2.nodes, x ∈ s.nodes ∨
    (s.next_id ≤ x.id ∧ x.id < s2.next_id ∧ WPiff x ∧ HasInc s2.edges x)) ∧
  (∀ e ∈ s2.edges, e ∈ s.edges ∨ s.next_id ≤ e.dst.id)

theorem step_ok_rfl (s : BState) : StepOk s s :=
  ⟨fun x hx => hx, fun e he => he, le_refl _, fun x hx => Or.inl hx,
    fun e he => Or.inl he⟩

theorem step_ok_trans {s1 s2 s3 : BState} (h12 : StepOk s1 s2)
    (h23 : StepOk s2 s3) : StepOk s1 s3 := by
  obtain ⟨a12, b12, c12, d12, e12⟩ := h12
  obtain ⟨a23, b23, c23, d23, e23⟩ := h23
  refine ⟨fun x hx => a23 x (a12 x hx), fun e he => b23 e (b12 e he),
    le_trans c12 c23, ?_, ?_⟩
  · intro x hx
    rcases d23 x hx with hx2 | ⟨hf1, hf2, hf3, hf4⟩
    · rcases d12 x hx2 with hx1 | ⟨hg1, hg2, hg3, hg4⟩
      · exact Or.inl hx1
      · refine Or.inr ⟨hg1, lt_of_lt_of_le hg2 c23, hg3, ?_⟩
        rcases hg4 with ⟨e, he, hto⟩
        exact ⟨e, b23 e he, hto⟩
    · exact Or.inr ⟨le_trans c12 hf1, hf2, hf3, hf4⟩
  · intro e he
    rcases e23 e he with he2 | hid
    · rcases e12 e he2 with he1 | hid
      · exact Or.inl he1
      · exact Or.inr hid
    · exact Or.inr (le_trans c12 hid)

/-- Registering a freshly built node with at least one incoming edge is
a valid growth step. -/
theorem step_build_register (s : BState) (p : NPfx) (wp : Bool)
    (orig : Option Atom) (f0 : CNode) (frest : List CNode)
    (hwp : (wp = true) ↔ (p = NPfx.loop_start)) :
    StepOk s (register_and_link (build_node s p wp orig).2 (f0 :: frest)
      (build_node s p wp orig).1) := by
  refine ⟨?_, ?_, ?_, ?_, ?_⟩
  · intro x hx
    simp only [register_and_link, build_node]
    exact List.mem_append_left _ hx
  · intro e he
    simp only [register_and_link, build_node]
    exact List.mem_append_left _ he
  · simp only [register_and_link, build_node]
    exact Nat.le_succ _
  · intro x hx
    simp only [register_and_link, build_node] at hx
    rcases List.mem_append.mp hx with hx | hx
    · exact Or.inl hx
    · rcases List.mem_singleton.mp hx with rfl
      refine Or.inr ⟨le_refl _, by simp [register_and_link, build_node], by
        simpa [WPiff] using hwp, ?_⟩
      refine ⟨⟨f0, (build_node s p wp orig).1⟩, ?_, rfl⟩
      simp [register_and_link, build_node]
  · intro e he
    simp only [register_and_link, build_node] at he
    rcases List.mem_append.mp he with he | he
    · exact Or.inl he
    · rcases List.mem_map.mp he with ⟨f, hf, rfl⟩
      exact Or.inr (le_refl _)

/-- The atom step: growth plus the location of the fresh node. -/
theorem visit_atom_ok (a : Atom) (cur : CNode) (s : BState) :
    StepOk s (visit_atom a cur s).1 ∧
    (visit_atom a cur s).2 ∈ (visit_atom a cur s).1.nodes ∧
    (visit_atom a cur s).2.id = s.next_id ∧
    (visit_atom a cur s).1.next_id = s.next_id + 1 ∧
    (CEdge.mk cur (visit_atom a cur s).2) ∈ (visit_atom a cur s).1.edges ∧
    (visit_atom a cur s).2.node = some a := by
  cases a <;>
    exact ⟨step_build_register s _ false (some _) cur [] (by simp),
      by simp [visit_atom, register_and_link, build_node],
      rfl, rfl, by simp [visit_atom, register_and_link, build_node], rfl⟩

/-- Structural invariant of the builder: lowering a statement list from
any state is a valid growth step, and the returned chain node is the
input node or a registered fresh node. -/
theorem visit_stmts_ok :
    ∀ (l : List Stmt) (cur : CNode) (s : BState),
      StepOk s (visit_stmts l cur s).1 ∧
      ((visit_stmts l cur s).2 = cur ∨
        ((visit_stmts l cur s).2 ∈ (visit_stmts l cur s).1.nodes ∧
          s.next_id ≤ (visit_stmts l cur s).2.id ∧
          (visit_stmts l cur s).2.id < (visit_stmts l cur s).1.next_id)) := by
  intro l cur s
  induction l, cur, s using visit_stmts.induct with
  | case1 cur s =>
      have key : visit_stmts [] cur s = (s, cur) := by
        simp only [visit_stmts]
      rw [key]
      exact ⟨step_ok_rfl s, Or.inl rfl⟩
  | case2 a rest cur s r ih =>
      have key : visit_stmts (Stmt.atom a :: rest) cur s =
          visit_stmts rest r.2 r.1 := by
        simp only [visit_stmts]
      rw [key]
      obtain ⟨ihs, ihc⟩ :
          StepOk r.1 (visit_stmts rest r.2 r.1).1 ∧
          ((visit_stmts rest r.2 r.1).2 = r.2 ∨
            ((visit_stmts rest r.2 r.1).2 ∈ (visit_stmts rest r.2 r.1).1.nodes ∧
              r.1.next_id ≤ (visit_stmts rest r.2 r.1).2.id ∧
              (visit_stmts rest r.2 r.1).2.id <
                (visit_stmts rest r.2 r.1).1.next_id)) := ih
      obtain ⟨hstep, hmem, hid, hnext, -, -⟩ :
          StepOk s r.1 ∧ r.2 ∈ r.1.nodes ∧ r.2.id = s.next_id ∧
          r.1.next_id = s.next_id + 1 ∧
          (CEdge.mk cur r.2) ∈ r.1.edges ∧ r.2.node = some a :=
        visit_atom_ok a cur s
      constructor
      · exact step_ok_trans hstep ihs
      · rcases ihc with hc | ⟨hm, hlo, hhi⟩
        · rw [hc]
          refine Or.inr ⟨ihs.1 _ hmem, by omega, ?_⟩
          have h1 : r.1.next_id ≤ (visit_stmts rest r.2 r.1).1.next_id :=
            ihs.2.2.1
          omega
        · refine Or.inr ⟨hm, ?_, hhi⟩
          have h1 : s.next_id ≤ r.1.next_id := hstep.2.2.1
          omega
  | case3 fst_stmts snd_stmts rest cur s r1 r2 j ihf ihsm ihsp ihr =>
      have key : visit_stmts (Stmt.split fst_stmts snd_stmts :: rest) cur s =
          visit_stmts rest j.1 (register_and_link j.2 [r1.2, r2.2] j.1) := by
        simp only [visit_stmts]
      rw [key]
      clear ihsm
      have ihf2 : StepOk s r1.1 ∧ (r1.2 = cur ∨
          (r1.2 ∈ r1.1.nodes ∧ s.next_id ≤ r1.2.id ∧
            r1.2.id < r1.1.next_id)) := ihf
      have ihs2 : StepOk r1.1 r2.1 ∧ (r2.2 = cur ∨
          (r2.2 ∈ r2.1.nodes ∧ r1.1.next_id ≤ r2.2.id ∧
            r2.2.id < r2.1.next_id)) := ihsp
      have ihr2 : StepOk (register_and_link j.2 [r1.2, r2.2] j.1)
          (visit_stmts rest j.1 (register_and_link j.2 [r1.2, r2.2] j.1)).1 ∧
          ((visit_stmts rest j.1 (register_and_link j.2 [r1.2, r2.2] j.1)).2 =
              j.1 ∨
            ((visit_stmts rest j.1
                (register_and_link j.2 [r1.2, r2.2] j.1)).2 ∈
              (visit_stmts rest j.1
                (register_and_link j.2 [r1.2, r2.2] j.1)).1.nodes ∧
              (register_and_link j.2 [r1.2, r2.2] j.1).next_id ≤
                (visit_stmts rest j.1
                  (register_and_link j.2 [r1.2, r2.2] j.1)).2.id ∧
              (visit_stmts rest j.1
                (register_and_link j.2 [r1.2, r2.2] j.1)).2.id <
                (visit_stmts rest j.1
                  (register_and_link j.2 [r1.2, r2.2] j.1)).1.next_id)) := ihr
      have hreg : StepOk r2.1 (register_and_link j.2 [r1.2, r2.2] j.1) :=
        step_build_register r2.1 NPfx.split_join false none r1.2 [r2.2]
          (by simp)
      have hjid : j.1.id = r2.1.next_id := rfl
      have hregn : (register_and_link j.2 [r1.2, r2.2] j.1).next_id =
          r2.1.next_id + 1 := rfl
      have hjin : j.1 ∈ (register_and_link j.2 [r1.2, r2.2] j.1).nodes := by
        show j.1 ∈ j.2.nodes ++ [j.1]
        simp
      have h1 : s.next_id ≤ r1.1.next_id := ihf2.1.2.2.1
      have h2 : r1.1.next_id ≤ r2.1.next_id := ihs2.1.2.2.1
      constructor
      · exact step_ok_trans (step_ok_trans (step_ok_trans ihf2.1 ihs2.1) hreg) ihr2.1
      · rcases ihr2.2 with hc | ⟨hm, hlo, hhi⟩
        · rw [hc]
          refine Or.inr ⟨ihr2.1.1 _ hjin, by omega, ?_⟩
          have h3 : (register_and_link j.2 [r1.2, r2.2] j.1).next_id ≤
              (visit_stmts rest j.1
                (register_and_link j.2 [r1.2, r2.2] j.1)).1.next_id :=
            ihr2.1.2.2.1
          omega
        · refine Or.inr ⟨hm, by omega, hhi⟩
  | case4 body rest cur s w r j s4 ihb1 ihb2 ihr =>
      have key : visit_stmts (Stmt.loop body :: rest) cur s =
          visit_stmts rest j.1 (register_and_link s4 [w.1] j.1) := by
        simp only [visit_stmts]
      rw [key]
      clear ihb2
      have ihb : StepOk w.2 r.1 ∧ (r.2 = w.1 ∨
          (r.2 ∈ r.1.nodes ∧ w.2.next_id ≤ r.2.id ∧
            r.2.id < r.1.next_id)) := ihb1
      have ihr2 : StepOk (register_and_link s4 [w.1] j.1)
          (visit_stmts rest j.1 (register_and_link s4 [w.1] j.1)).1 ∧
          ((visit_stmts rest j.1 (register_and_link s4 [w.1] j.1)).2 = j.1 ∨
            ((visit_stmts rest j.1 (register_and_link s4 [w.1] j.1)).2 ∈
              (visit_stmts rest j.1 (register_and_link s4 [w.1] j.1)).1.nodes ∧
              (register_and_link s4 [w.1] j.1).next_id ≤
                (visit_stmts rest j.1 (register_and_link s4 [w.1] j.1)).2.id ∧
              (visit_stmts rest j.1 (register_and_link s4 [w.1] j.1)).2.id <
                (visit_stmts rest j.1
                  (register_and_link s4 [w.1] j.1)).1.next_id)) := ihr
      have hw_nodes : w.2.nodes = s.nodes := rfl
      have hw_edges : w.2.edges = s.edges := rfl
      have hw_next : w.2.next_id = s.next_id + 1 := rfl
      have hwid : w.1.id = s.next_id := rfl
      have hjid : j.1.id = r.1.next_id := rfl
      have hs5nodes : (register_and_link s4 [w.1] j.1).nodes =
          r.1.nodes ++ [w.1] ++ [j.1] := rfl
      have hs5edges : (register_and_link s4 [w.1] j.1).edges =
          r.1.edges ++ [⟨cur, w.1⟩, ⟨r.2, w.1⟩] ++ [⟨w.1, j.1⟩] := rfl
      have hs5next : (register_and_link s4 [w.1] j.1).next_id =
          r.1.next_id + 1 := rfl
      have hbn : w.2.next_id ≤ r.1.next_id := ihb.1.2.2.1
      have hwpw : WPiff w.1 := Iff.intro (fun _ => rfl) (fun _ => rfl)
      have hwpj : WPiff j.1 :=
        Iff.intro (fun h => nomatch h) (fun h => nomatch h)
      have hstep : StepOk s (register_and_link s4 [w.1] j.1) := by
        refine ⟨?_, ?_, ?_, ?_, ?_⟩
        · intro x hx
          rw [hs5nodes]
          refine List.mem_append.mpr (Or.inl (List.mem_append.mpr (Or.inl ?_)))
          exact ihb.1.1 x (by rw [hw_nodes]; exact hx)
        · intro e he
          rw [hs5edges]
          refine List.mem_append.mpr (Or.inl (List.mem_append.mpr (Or.inl ?_)))
          exact ihb.1.2.1 e (by rw [hw_edges]; exact he)
        · omega
        · intro x hx
          rw [hs5nodes] at hx
          rcases List.mem_append.mp hx with hx | hx
          · rcases List.mem_append.mp hx with hx | hx
            · rcases ihb.1.2.2.2.1 x hx with hxw | ⟨hf1, hf2, hf3, hf4⟩
              · exact Or.inl (by rw [← hw_nodes]; exact hxw)
              · refine Or.inr ⟨by omega, by omega, hf3, ?_⟩
                rcases hf4 with ⟨e, he, hto⟩
                refine ⟨e, ?_, hto⟩
                rw [hs5edges]
                exact List.mem_append.mpr (Or.inl
                  (List.mem_append.mpr (Or.inl he)))
            · rcases List.mem_singleton.mp hx with rfl
              refine Or.inr ⟨by omega, by omega, hwpw, ?_⟩
              refine ⟨⟨cur, w.1⟩, ?_, rfl⟩
              rw [hs5edges]
              exact List.mem_append.mpr (Or.inl
                (List.mem_append.mpr (Or.inr (by simp))))
          · rcases List.mem_singleton.mp hx with rfl
            refine Or.inr ⟨by omega, by omega, hwpj, ?_⟩
            refine ⟨⟨w.1, j.1⟩, ?_, rfl⟩
            rw [hs5edges]
            exact List.mem_append.mpr (Or.inr (by simp))
        · intro e he
          rw [hs5edges] at he
          rcases List.mem_append.mp he with he | he
          · rcases List.mem_append.mp he with he | he
            · rcases ihb.1.2.2.2.2 e he with hes | hid2
              · exact Or.inl (by rw [← hw_edges]; exact hes)
              · exact Or.inr (by omega)
            · rcases List.mem_cons.mp he with rfl | he
              · exact Or.inr (show s.next_id ≤ w.1.id by omega)
              · rcases List.mem_singleton.mp he with rfl
                exact Or.inr (show s.next_id ≤ w.1.id by omega)
          · rcases List.mem_singleton.mp he with rfl
            exact Or.inr (show s.next_id ≤ j.1.id by omega)
      constructor
      · exact step_ok_trans hstep ihr2.1
      · rcases ihr2.2 with hc | ⟨hm, hlo, hhi⟩
        · rw [hc]
          refine Or.inr ⟨ihr2.1.1 j.1 (by rw [hs5nodes]; simp), by omega, ?_⟩
          have h3 : (register_and_link s4 [w.1] j.1).next_id ≤
              (visit_stmts rest j.1 (register_and_link s4 [w.1] j.1)).1.next_id :=
            ihr2.1.2.2.1
          omega
        · refine Or.inr ⟨hm, by omega, hhi⟩

/-- Reachability invariant of the builder: relative to any edge
collection containing the produced edges, every node produced by
lowering a statement list is reachable from the chain node the lowering
started at, and so is the returned chain node. -/
theorem visit_stmts_reach :
    ∀ (l : List Stmt) (cur : CNode) (s : BState) (E : List CEdge),
      (∀ e ∈ (visit_stmts l cur s).1.edges, e ∈ E) →
      (∀ x ∈ (visit_stmts l cur s).1.nodes, x ∈ s.nodes ∨ Reach E cur x) ∧
      Reach E cur (visit_stmts l cur s).2 := by
  intro l cur s
  induction l, cur, s using visit_stmts.induct with
  | case1 cur s =>
      intro E hE
      have key : visit_stmts [] cur s = (s, cur) := by
        simp only [visit_stmts]
      rw [key]
      exact ⟨fun x hx => Or.inl hx, Relation.ReflTransGen.refl⟩
  | case2 a rest cur s r ih =>
      intro E hE
      have key : visit_stmts (Stmt.atom a :: rest) cur s =
          visit_stmts rest r.2 r.1 := by
        simp only [visit_stmts]
      rw [key] at hE ⊢
      have hrestok := visit_stmts_ok rest r.2 r.1
      have hr1E : ∀ e ∈ r.1.edges, e ∈ E :=
        fun e he => hE e (hrestok.1.2.1 e he)
      have hedge : (CEdge.mk cur r.2) ∈ r.1.edges :=
        (visit_atom_ok a cur s).2.2.2.2.1
      have hcr : Reach E cur r.2 :=
        Relation.ReflTransGen.single ⟨⟨cur, r.2⟩, hr1E _ hedge, rfl, rfl⟩
      have hnodes : r.1.nodes = s.nodes ++ [r.2] := rfl
      obtain ⟨ihn, ihc⟩ := ih E hE
      constructor
      · intro x hx
        rcases ihn x hx with hx2 | hx2
        · rw [hnodes] at hx2
          rcases List.mem_append.mp hx2 with hx3 | hx3
          · exact Or.inl hx3
          · rcases List.mem_singleton.mp hx3 with rfl
            exact Or.inr hcr
        · exact Or.inr (hcr.trans hx2)
      · exact hcr.trans ihc
  | case3 fst_stmts snd_stmts rest cur s r1 r2 j ihf ihsm ihsp ihr =>
      intro E hE
      have key : visit_stmts (Stmt.split fst_stmts snd_stmts :: rest) cur s =
          visit_stmts rest j.1 (register_and_link j.2 [r1.2, r2.2] j.1) := by
        simp only [visit_stmts]
      rw [key] at hE ⊢
      clear ihsm
      have hrestok := visit_stmts_ok rest j.1
        (register_and_link j.2 [r1.2, r2.2] j.1)
      have hs5E : ∀ e ∈ (register_and_link j.2 [r1.2, r2.2] j.1).edges,
          e ∈ E := fun e he => hE e (hrestok.1.2.1 e he)
      have hs5edges : (register_and_link j.2 [r1.2, r2.2] j.1).edges =
          r2.1.edges ++ [⟨r1.2, j.1⟩, ⟨r2.2, j.1⟩] := rfl
      have hr2E : ∀ e ∈ r2.1.edges, e ∈ E := by
        intro e he
        refine hs5E e ?_
        rw [hs5edges]
        exact List.mem_append.mpr (Or.inl he)
      have hsndok := visit_stmts_ok snd_stmts cur r1.1
      have hr1E : ∀ e ∈ r1.1.edges, e ∈ E := by
        intro e he
        refine hr2E e ?_
        exact hsndok.1.2.1 e he
      obtain ⟨ihfn, ihfc⟩ : (∀ x ∈ r1.1.nodes, x ∈ s.nodes ∨ Reach E cur x) ∧
          Reach E cur r1.2 := ihf E hr1E
      obtain ⟨ihsn, ihsc⟩ : (∀ x ∈ r2.1.nodes, x ∈ r1.1.nodes ∨
          Reach E cur x) ∧ Reach E cur r2.2 := ihsp E hr2E
      have hjreach : Reach E cur j.1 := by
        refine ihfc.trans (Relation.ReflTransGen.single
          ⟨⟨r1.2, j.1⟩, ?_, rfl, rfl⟩)
        refine hs5E _ ?_
        rw [hs5edges]
        exact List.mem_append.mpr (Or.inr (by simp))
      have hs5nodes : (register_and_link j.2 [r1.2, r2.2] j.1).nodes =
          r2.1.nodes ++ [j.1] := rfl
      obtain ⟨ihrn, ihrc⟩ : (∀ x ∈ (visit_stmts rest j.1
            (register_and_link j.2 [r1.2, r2.2] j.1)).1.nodes,
          x ∈ (register_and_link j.2 [r1.2, r2.2] j.1).nodes ∨
            Reach E j.1 x) ∧
          Reach E j.1 (visit_stmts rest j.1
            (register_and_link j.2 [r1.2, r2.2] j.1)).2 := ihr E hE
      constructor
      · intro x hx
        rcases ihrn x hx with hx2 | hx2
        · rw [hs5nodes] at hx2
          rcases List.mem_append.mp hx2 with hx3 | hx3
          · rcases ihsn x hx3 with hx4 | hx4
            · exact ihfn x hx4
            · exact Or.inr hx4
          · rcases List.mem_singleton.mp hx3 with rfl
            exact Or.inr hjreach
        · exact Or.inr (hjreach.trans hx2)
      · exact hjreach.trans ihrc
  | case4 body rest cur s w r j s4 ihb1 ihb2 ihr =>
      intro E hE
      have key : visit_stmts (Stmt.loop body :: rest) cur s =
          visit_stmts rest j.1 (register_and_link s4 [w.1] j.1) := by
        simp only [visit_stmts]
      rw [key] at hE ⊢
      clear ihb2
      have hrestok := visit_stmts_ok rest j.1 (register_and_link s4 [w.1] j.1)
      have hs5E : ∀ e ∈ (register_and_link s4 [w.1] j.1).edges, e ∈ E :=
        fun e he => hE e (hrestok.1.2.1 e he)
      have hs5edges : (register_and_link s4 [w.1] j.1).edges =
          r.1.edges ++ [⟨cur, w.1⟩, ⟨r.2, w.1⟩] ++ [⟨w.1, j.1⟩] := rfl
      have hrE : ∀ e ∈ r.1.edges, e ∈ E := by
        intro e he
        refine hs5E e ?_
        rw [hs5edges]
        exact List.mem_append.mpr (Or.inl (List.mem_append.mpr (Or.inl he)))
      have hwreach : Reach E cur w.1 := by
        refine Relation.ReflTransGen.single ⟨⟨cur, w.1⟩, ?_, rfl, rfl⟩
        refine hs5E _ ?_
        rw [hs5edges]
        exact List.mem_append.mpr (Or.inl (List.mem_append.mpr
          (Or.inr (by simp))))
      obtain ⟨ihbn, ihbc⟩ : (∀ x ∈ r.1.nodes, x ∈ w.2.nodes ∨
          Reach E w.1 x) ∧ Reach E w.1 r.2 := ihb1 E hrE
      have hjreach : Reach E cur j.1 := by
        refine hwreach.trans (Relation.ReflTransGen.single
          ⟨⟨w.1, j.1⟩, ?_, rfl, rfl⟩)
        refine hs5E _ ?_
        rw [hs5edges]
        exact List.mem_append.mpr (Or.inr (by simp))
      have hs5nodes : (register_and_link s4 [w.1] j.1).nodes =
          r.1.nodes ++ [w.1] ++ [j.1] := rfl
      have hw_nodes : w.2.nodes = s.nodes := rfl
      obtain ⟨ihrn, ihrc⟩ : (∀ x ∈ (visit_stmts rest j.1
            (register_and_link s4 [w.1] j.1)).1.nodes,
          x ∈ (register_and_link s4 [w.1] j.1).nodes ∨ Reach E j.1 x) ∧
          Reach E j.1 (visit_stmts rest j.1
            (register_and_link s4 [w.1] j.1)).2 := ihr E hE
      constructor
      · intro x hx
        rcases ihrn x hx with hx2 | hx2
        · rw [hs5nodes] at hx2
          rcases List.mem_append.mp hx2 with hx3 | hx3
          · rcases List.mem_append.mp hx3 with hx4 | hx4
            · rcases ihbn x hx4 with hx5 | hx5
              · exact Or.inl (by rw [← hw_nodes]; exact hx5)
              · exact Or.inr (hwreach.trans hx5)
            · rcases List.mem_singleton.mp hx4 with rfl
              exact Or.inr hwreach
          · rcases List.mem_singleton.mp hx3 with rfl
            exact Or.inr hjreach
        · exact Or.inr (hjreach.trans hx2)
      · exact hjreach.trans ihrc

/-! ### Claim C6 -/

/-- C6.  For every IR program, the graph built by
`CFGBuilder.visit_program` has the start node among its nodes, a node of
the graph has no incoming edge exactly when it is the start node (so the
start node is the single entry), and every node of the graph is
reachable from the start node — the builder never emits an unreachable
node. -/
theorem c6_single_entry_all_reachable :
    ∀ stmts : List Stmt,
      start_node ∈ (visit_program stmts).nodes ∧
      (∀ n ∈ (visit_program stmts).nodes,
        (¬ HasInc (visit_program stmts).edges n ↔ n = start_node)) ∧
      (∀ n ∈ (visit_program stmts).nodes,
        Reach (visit_program stmts).edges start_node n) := by
  intro stmts
  have hok := visit_stmts_ok stmts start_node
    (build_node ⟨[], [], fun _ => 0, 0⟩ NPfx.start false none).2
  have hreach := visit_stmts_reach stmts start_node
    (build_node ⟨[], [], fun _ => 0, 0⟩ NPfx.start false none).2
    (visit_stmts stmts start_node
      (build_node ⟨[], [], fun _ => 0, 0⟩ NPfx.start false none).2).1.edges
    (fun _ he => he)
  have hnodes : (visit_program stmts).nodes =
      (visit_stmts stmts start_node
        (build_node ⟨[], [], fun _ => 0, 0⟩ NPfx.start false none).2).1.nodes
        ++ [start_node] := rfl
  have hedges : (visit_program stmts).edges =
      (visit_stmts stmts start_node
        (build_node ⟨[], [], fun _ => 0, 0⟩ NPfx.start false
          none).2).1.edges := rfl
  refine ⟨by rw [hnodes]; simp, ?_, ?_⟩
  · intro n hn
    rw [hnodes] at hn
    rcases List.mem_append.mp hn with hn2 | hn2
    · rcases hok.1.2.2.2.1 n hn2 with hn3 | ⟨hf1, -, -, hinc⟩
      · exact absurd (show n ∈ ([] : List CNode) from hn3) (by simp)
      · constructor
        · intro hni
          exact absurd (show HasInc (visit_program stmts).edges n by
            rw [hedges]; exact hinc) hni
        · intro heq
          subst heq
          exact absurd hf1 (by decide)
    · rcases List.mem_singleton.mp hn2 with rfl
      constructor
      · intro _
        rfl
      · rintro - ⟨e, he, hto⟩
        rw [hedges] at he
        rcases hok.1.2.2.2.2 e he with he2 | he2
        · exact absurd (show e ∈ ([] : List CEdge) from he2) (by simp)
        · rw [hto] at he2
          exact absurd he2 (by decide)
  · intro n hn
    rw [hnodes] at hn
    rw [hedges]
    rcases List.mem_append.mp hn with hn2 | hn2
    · rcases hreach.1 n hn2 with hn3 | hn3
      · exact absurd (show n ∈ ([] : List CNode) from hn3) (by simp)
      · exact hn3
    · rcases List.mem_singleton.mp hn2 with rfl
      exact Relation.ReflTransGen.refl

theorem visit_stmts_append :
    ∀ (l1 : List Stmt) (cur : CNode) (s : BState) (l2 : List Stmt),
      visit_stmts (l1 ++ l2) cur s =
        visit_stmts l2 (visit_stmts l1 cur s).2 (visit_stmts l1 cur s).1 := by
  intro l1 cur s
  induction l1, cur, s using visit_stmts.induct with
  | case1 cur s =>
      intro l2
      have k1 : visit_stmts [] cur s = (s, cur) := by simp only [visit_stmts]
      rw [List.nil_append, k1]
  | case2 a rest cur s r ih =>
      intro l2
      have k1 : visit_stmts ((Stmt.atom a :: rest) ++ l2) cur s =
          visit_stmts (rest ++ l2) r.2 r.1 := by
        simp only [List.cons_append, visit_stmts]
      have k2 : visit_stmts (Stmt.atom a :: rest) cur s =
          visit_stmts rest r.2 r.1 := by
        simp only [visit_stmts]
      rw [k1, ih l2, k2]
  | case3 fst_stmts snd_stmts rest cur s r1 r2 j ihf ihsm ihsp ihr =>
      intro l2
      have k1 : visit_stmts ((Stmt.split fst_stmts snd_stmts :: rest) ++ l2)
          cur s = visit_stmts (rest ++ l2) j.1
            (register_and_link j.2 [r1.2, r2.2] j.1) := by
        simp only [List.cons_append, visit_stmts]
      have k2 : visit_stmts (Stmt.split fst_stmts snd_stmts :: rest) cur s =
          visit_stmts rest j.1 (register_and_link j.2 [r1.2, r2.2] j.1) := by
        simp only [visit_stmts]
      rw [k1, ihr l2, k2]
  | case4 body rest cur s w r j s4 ihb1 ihb2 ihr =>
      intro l2
      have k1 : visit_stmts ((Stmt.loop body :: rest) ++ l2) cur s =
          visit_stmts (rest ++ l2) j.1 (register_and_link s4 [w.1] j.1) := by
        simp only [List.cons_append, visit_stmts]
      have k2 : visit_stmts (Stmt.loop body :: rest) cur s =
          visit_stmts rest j.1 (register_and_link s4 [w.1] j.1) := by
        simp only [visit_stmts]
      rw [k1, ihr l2, k2]

/-- State embedding: all nodes and edges of the first state occur in the
second. -/
def Embeds (sa sb : BState) : Prop :=
  (∀ x ∈ sa.nodes, x ∈ sb.nodes) ∧ (∀ e ∈ sa.edges, e ∈ sb.edges)

theorem embeds_rfl (s : BState) : Embeds s s :=
  ⟨fun _ hx => hx, fun _ he => he⟩

theorem embeds_trans {s1 s2 s3 : BState} (h12 : Embeds s1 s2)
    (h23 : Embeds s2 s3) : Embeds s1 s3 :=
  ⟨fun x hx => h23.1 x (h12.1 x hx), fun e he => h23.2 e (h12.2 e he)⟩

theorem Embeds.of_step {s s2 : BState} (h : StepOk s s2) : Embeds s s2 :=
  ⟨h.1, h.2.1⟩

theorem embeds_register (s : BState) (froms : List CNode) (n : CNode) :
    Embeds s (register_and_link s froms n) :=
  ⟨fun x hx => List.mem_append.mpr (Or.inl hx),
    fun e he => List.mem_append.mpr (Or.inl he)⟩

theorem embeds_build_register (X : BState) (p : NPfx) (wp : Bool)
    (orig : Option Atom) (froms : List CNode) (n : CNode) :
    Embeds X (register_and_link (build_node X p wp orig).2 froms n) :=
  ⟨fun x hx => List.mem_append.mpr (Or.inl hx),
    fun e he => List.mem_append.mpr (Or.inl he)⟩

/-- Occurrence of a statement inside another statement (through split
branches and loop bodies). -/
inductive SubStmt : Stmt → Stmt → Prop where
  | refl (s : Stmt) : SubStmt s s
  | in_split_fst {tg u : Stmt} {fst_stmts snd_stmts : List Stmt} :
      SubStmt tg u → u ∈ fst_stmts →
      SubStmt tg (.split fst_stmts snd_stmts)
  | in_split_snd {tg u : Stmt} {fst_stmts snd_stmts : List Stmt} :
      SubStmt tg u → u ∈ snd_stmts →
      SubStmt tg (.split fst_stmts snd_stmts)
  | in_loop {tg u : Stmt} {body : List Stmt} :
      SubStmt tg u → u ∈ body → SubStmt tg (.loop body)

/-- Occurrence of a statement in a program. -/
def OccursIn (tg : Stmt) (l : List Stmt) : Prop := ∃ u ∈ l, SubStmt tg u

/-- Visiting a list that contains `u` embeds a visit of `[u]` from some
intermediate chain node and state. -/
theorem exec_mem (l : List Stmt) (u : Stmt) (hu : u ∈ l) (cur : CNode)
    (s : BState) : ∃ cur1 s1,
      Embeds (visit_stmts [u] cur1 s1).1 (visit_stmts l cur s).1 := by
  obtain ⟨a, b, rfl⟩ := List.append_of_mem hu
  refine ⟨(visit_stmts a cur s).2, (visit_stmts a cur s).1, ?_⟩
  have h1 : visit_stmts (a ++ u :: b) cur s =
      visit_stmts (u :: b) (visit_stmts a cur s).2 (visit_stmts a cur s).1 :=
    visit_stmts_append a cur s (u :: b)
  have h2 : visit_stmts (u :: b) (visit_stmts a cur s).2
        (visit_stmts a cur s).1 =
      visit_stmts b
        (visit_stmts [u] (visit_stmts a cur s).2 (visit_stmts a cur s).1).2
        (visit_stmts [u] (visit_stmts a cur s).2
          (visit_stmts a cur s).1).1 := by
    have h3 := visit_stmts_append [u] (visit_stmts a cur s).2
      (visit_stmts a cur s).1 b
    simpa using h3
  rw [h1, h2]
  exact Embeds.of_step (visit_stmts_ok b _ _).1

theorem embeds_split_fst (fst_stmts snd_stmts rest : List Stmt)
    (cur : CNode) (s : BState) :
    Embeds (visit_stmts fst_stmts cur s).1
      (visit_stmts (Stmt.split fst_stmts snd_stmts :: rest) cur s).1 := by
  have key : visit_stmts (Stmt.split fst_stmts snd_stmts :: rest) cur s =
      visit_stmts rest
        (build_node (visit_stmts snd_stmts cur
          (visit_stmts fst_stmts cur s).1).1 .split_join false none).1
        (register_and_link
          (build_node (visit_stmts snd_stmts cur
            (visit_stmts fst_stmts cur s).1).1 .split_join false none).2
          [(visit_stmts fst_stmts cur s).2,
            (visit_stmts snd_stmts cur (visit_stmts fst_stmts cur s).1).2]
          (build_node (visit_stmts snd_stmts cur
            (visit_stmts fst_stmts cur s).1).1 .split_join false none).1) := by
    simp only [visit_stmts]
  rw [key]
  exact embeds_trans (embeds_trans
    (Embeds.of_step (visit_stmts_ok snd_stmts cur _).1)
    (embeds_build_register _ _ _ _ _ _))
    (Embeds.of_step (visit_stmts_ok rest _ _).1)

theorem embeds_split_snd (fst_stmts snd_stmts rest : List Stmt)
    (cur : CNode) (s : BState) :
    Embeds (visit_stmts snd_stmts cur (visit_stmts fst_stmts cur s).1).1
      (visit_stmts (Stmt.split fst_stmts snd_stmts :: rest) cur s).1 := by
  have key : visit_stmts (Stmt.split fst_stmts snd_stmts :: rest) cur s =
      visit_stmts rest
        (build_node (visit_stmts snd_stmts cur
          (visit_stmts fst_stmts cur s).1).1 .split_join false none).1
        (register_and_link
          (build_node (visit_stmts snd_stmts cur
            (visit_stmts fst_stmts cur s).1).1 .split_join false none).2
          [(visit_stmts fst_stmts cur s).2,
            (visit_stmts snd_stmts cur (visit_stmts fst_stmts cur s).1).2]
          (build_node (visit_stmts snd_stmts cur
            (visit_stmts fst_stmts cur s).1).1 .split_join false none).1) := by
    simp only [visit_stmts]
  rw [key]
  exact embeds_trans (embeds_build_register _ _ _ _ _ _)
    (Embeds.of_step (visit_stmts_ok rest _ _).1)

theorem embeds_loop_body (body rest : List Stmt) (cur : CNode)
    (s : BState) :
    Embeds (visit_stmts body (build_node s .loop_start true none).1
        (build_node s .loop_start true none).2).1
      (visit_stmts (Stmt.loop body :: rest) cur s).1 := by
  have key : visit_stmts (Stmt.loop body :: rest) cur s =
      visit_stmts rest
        (build_node (visit_stmts body (build_node s .loop_start true none).1
          (build_node s .loop_start true none).2).1 .loop_join false none).1
        (register_and_link
          (register_and_link
            (build_node (visit_stmts body
              (build_node s .loop_start true none).1
              (build_node s .loop_start true none).2).1 .loop_join false
              none).2
            [cur, (visit_stmts body (build_node s .loop_start true none).1
              (build_node s .loop_start true none).2).2]
            (build_node s .loop_start true none).1)
          [(build_node s .loop_start true none).1]
          (build_node (visit_stmts body
            (build_node s .loop_start true none).1
            (build_node s .loop_start true none).2).1 .loop_join false
            none).1) := by
    simp only [visit_stmts]
  rw [key]
  exact embeds_trans (embeds_trans (embeds_build_register _ _ _ _ _ _)
    (embeds_register _ _ _))
    (Embeds.of_step (visit_stmts_ok rest _ _).1)

/-- Any occurrence of a statement in a program yields an embedded visit
of that statement alone. -/
theorem exec_sub : ∀ {tg t : Stmt}, SubStmt tg t →
    ∀ (cur : CNode) (s : BState), ∃ cur0 s0,
      Embeds (visit_stmts [tg] cur0 s0).1 (visit_stmts [t] cur s).1 := by
  intro tg t hsub
  induction hsub with
  | refl => exact fun cur s => ⟨cur, s, embeds_rfl _⟩
  | in_split_fst hsub2 hu ih =>
      intro cur s
      obtain ⟨cur1, s1, h1⟩ := exec_mem _ _ hu cur s
      obtain ⟨cur0, s0, h0⟩ := ih cur1 s1
      exact ⟨cur0, s0, embeds_trans (embeds_trans h0 h1) (embeds_split_fst _ _ [] cur s)⟩
  | in_split_snd hsub2 hu ih =>
      intro cur s
      obtain ⟨cur1, s1, h1⟩ := exec_mem _ _ hu cur
        (visit_stmts _ cur s).1
      obtain ⟨cur0, s0, h0⟩ := ih cur1 s1
      exact ⟨cur0, s0, embeds_trans (embeds_trans h0 h1) (embeds_split_snd _ _ [] cur s)⟩
  | in_loop hsub2 hu ih =>
      intro cur s
      obtain ⟨cur1, s1, h1⟩ := exec_mem _ _ hu
        (build_node s .loop_start true none).1
        (build_node s .loop_start true none).2
      obtain ⟨cur0, s0, h0⟩ := ih cur1 s1
      exact ⟨cur0, s0, embeds_trans (embeds_trans h0 h1) (embeds_loop_body _ [] cur s)⟩

theorem exec_occurs {tg : Stmt} {l : List Stmt} (h : OccursIn tg l)
    (cur : CNode) (s : BState) : ∃ cur0 s0,
      Embeds (visit_stmts [tg] cur0 s0).1 (visit_stmts l cur s).1 := by
  obtain ⟨u, hu, hsub⟩ := h
  obtain ⟨cur1, s1, h1⟩ := exec_mem l u hu cur s
  obtain ⟨cur0, s0, h0⟩ := exec_sub hsub cur1 s1
  exact ⟨cur0, s0, embeds_trans h0 h1⟩

/-- The shape produced by lowering one loop statement: a widening-point
`loop_start` entry, an edge from the predecessor to the entry, the body
lowered from the entry with a back-edge from the body end to the entry,
and an edge from the entry to a synthesized `loop_join` exit node. -/
theorem loop_run_shape (body : List Stmt) (cur0 : CNode) (s0 : BState) :
    ∃ w bend j,
      w ∈ (visit_stmts [Stmt.loop body] cur0 s0).1.nodes ∧
      j ∈ (visit_stmts [Stmt.loop body] cur0 s0).1.nodes ∧
      w.is_widening_point = true ∧ w.pfx = NPfx.loop_start ∧
      w.node = none ∧
      CEdge.mk cur0 w ∈ (visit_stmts [Stmt.loop body] cur0 s0).1.edges ∧
      Reach (visit_stmts [Stmt.loop body] cur0 s0).1.edges w bend ∧
      CEdge.mk bend w ∈ (visit_stmts [Stmt.loop body] cur0 s0).1.edges ∧
      CEdge.mk w j ∈ (visit_stmts [Stmt.loop body] cur0 s0).1.edges ∧
      j.pfx = NPfx.loop_join ∧ j.node = none := by
  have key : visit_stmts [Stmt.loop body] cur0 s0 =
      (register_and_link
        (register_and_link
          (build_node (visit_stmts body
            (build_node s0 .loop_start true none).1
            (build_node s0 .loop_start true none).2).1 .loop_join false
            none).2
          [cur0, (visit_stmts body (build_node s0 .loop_start true none).1
            (build_node s0 .loop_start true none).2).2]
          (build_node s0 .loop_start true none).1)
        [(build_node s0 .loop_start true none).1]
        (build_node (visit_stmts body
          (build_node s0 .loop_start true none).1
          (build_node s0 .loop_start true none).2).1 .loop_join false
          none).1,
       (build_node (visit_stmts body
          (build_node s0 .loop_start true none).1
          (build_node s0 .loop_start true none).2).1 .loop_join false
          none).1) := by
    simp only [visit_stmts]
  refine ⟨(build_node s0 NPfx.loop_start true none).1,
    (visit_stmts body (build_node s0 NPfx.loop_start true none).1
      (build_node s0 NPfx.loop_start true none).2).2,
    (build_node (visit_stmts body
      (build_node s0 NPfx.loop_start true none).1
      (build_node s0 NPfx.loop_start true none).2).1 NPfx.loop_join false
      none).1, ?_, ?_, rfl, rfl, rfl, ?_, ?_, ?_, ?_, rfl, rfl⟩
  · rw [key]
    show _ ∈ _ ++ [(build_node s0 NPfx.loop_start true none).1] ++ _
    simp
  · rw [key]
    show _ ∈ _ ++ [(build_node (visit_stmts body
      (build_node s0 NPfx.loop_start true none).1
      (build_node s0 NPfx.loop_start true none).2).1 NPfx.loop_join false
      none).1]
    simp
  · rw [key]
    show _ ∈ _ ++ _ ++ _
    refine List.mem_append.mpr (Or.inl (List.mem_append.mpr (Or.inr ?_)))
    simp
  · rw [key]
    refine (visit_stmts_reach body
      (build_node s0 NPfx.loop_start true none).1
      (build_node s0 NPfx.loop_start true none).2 _ ?_).2
    intro e he
    show e ∈ _ ++ _ ++ _
    exact List.mem_append.mpr (Or.inl (List.mem_append.mpr (Or.inl he)))
  · rw [key]
    show _ ∈ _ ++ _ ++ _
    refine List.mem_append.mpr (Or.inl (List.mem_append.mpr (Or.inr ?_)))
    simp
  · rw [key]
    show _ ∈ _ ++ _ ++ _
    refine List.mem_append.mpr (Or.inr ?_)
    simp

/-- The split statement shape the frontend produces for an `if`
statement (lal.py lines 187-207): a `SplitStmt` whose first branch is
seeded with `AssumeStmt(cond)` and whose second branch is seeded with
`AssumeStmt(not cond)`, where the negation is a `!`-unary expression
carrying the condition's type hint; `notRef` is the identity of the
fresh negation node. -/
def split_of_if (notRef : Nat) (cond : Expr) (then_stmts else_stmts :
    List Stmt) : Stmt :=
  .split (.atom (.assume cond) :: then_stmts)
    (.atom (.assume (.unexpr notRef "!" cond cond.hint)) :: else_stmts)

/-- The shape produced by lowering one frontend-seeded split statement:
two assume nodes (of the condition and of its negation) both linked from
the predecessor, the two lowered branches reaching their end nodes, and
a single synthesized `split_join` node linked from both branch ends. -/
theorem split_run_shape (notRef : Nat) (cond : Expr)
    (then_stmts else_stmts : List Stmt) (cur0 : CNode) (s0 : BState) :
    ∃ a1 a2 e1 e2 j,
      a1 ∈ (visit_stmts [split_of_if notRef cond then_stmts else_stmts]
        cur0 s0).1.nodes ∧
      a2 ∈ (visit_stmts [split_of_if notRef cond then_stmts else_stmts]
        cur0 s0).1.nodes ∧
      j ∈ (visit_stmts [split_of_if notRef cond then_stmts else_stmts]
        cur0 s0).1.nodes ∧
      a1 ≠ a2 ∧
      a1.node = some (.assume cond) ∧
      a2.node = some (.assume (.unexpr notRef "!" cond cond.hint)) ∧
      CEdge.mk cur0 a1 ∈ (visit_stmts
        [split_of_if notRef cond then_stmts else_stmts] cur0 s0).1.edges ∧
      CEdge.mk cur0 a2 ∈ (visit_stmts
        [split_of_if notRef cond then_stmts else_stmts] cur0 s0).1.edges ∧
      Reach (visit_stmts [split_of_if notRef cond then_stmts else_stmts]
        cur0 s0).1.edges a1 e1 ∧
      Reach (visit_stmts [split_of_if notRef cond then_stmts else_stmts]
        cur0 s0).1.edges a2 e2 ∧
      CEdge.mk e1 j ∈ (visit_stmts
        [split_of_if notRef cond then_stmts else_stmts] cur0 s0).1.edges ∧
      CEdge.mk e2 j ∈ (visit_stmts
        [split_of_if notRef cond then_stmts else_stmts] cur0 s0).1.edges ∧
      j.pfx = NPfx.split_join ∧ j.node = none := by
  have key : visit_stmts [split_of_if notRef cond then_stmts else_stmts]
      cur0 s0 =
      (register_and_link
        (build_node (visit_stmts else_stmts
          (visit_atom (.assume (.unexpr notRef "!" cond cond.hint)) cur0
            (visit_stmts then_stmts
              (visit_atom (.assume cond) cur0 s0).2
              (visit_atom (.assume cond) cur0 s0).1).1).2
          (visit_atom (.assume (.unexpr notRef "!" cond cond.hint)) cur0
            (visit_stmts then_stmts
              (visit_atom (.assume cond) cur0 s0).2
              (visit_atom (.assume cond) cur0 s0).1).1).1).1
          .split_join false none).2
        [(visit_stmts then_stmts (visit_atom (.assume cond) cur0 s0).2
          (visit_atom (.assume cond) cur0 s0).1).2,
         (visit_stmts else_stmts
          (visit_atom (.assume (.unexpr notRef "!" cond cond.hint)) cur0
            (visit_stmts then_stmts
              (visit_atom (.assume cond) cur0 s0).2
              (visit_atom (.assume cond) cur0 s0).1).1).2
          (visit_atom (.assume (.unexpr notRef "!" cond cond.hint)) cur0
            (visit_stmts then_stmts
              (visit_atom (.assume cond) cur0 s0).2
              (visit_atom (.assume cond) cur0 s0).1).1).1).2]
        (build_node (visit_stmts else_stmts
          (visit_atom (.assume (.unexpr notRef "!" cond cond.hint)) cur0
            (visit_stmts then_stmts
              (visit_atom (.assume cond) cur0 s0).2
              (visit_atom (.assume cond) cur0 s0).1).1).2
          (visit_atom (.assume (.unexpr notRef "!" cond cond.hint)) cur0
            (visit_stmts then_stmts
              (visit_atom (.assume cond) cur0 s0).2
              (visit_atom (.assume cond) cur0 s0).1).1).1).1
          .split_join false none).1,
       (build_node (visit_stmts else_stmts
          (visit_atom (.assume (.unexpr notRef "!" cond cond.hint)) cur0
            (visit_stmts then_stmts
              (visit_atom (.assume cond) cur0 s0).2
              (visit_atom (.assume cond) cur0 s0).1).1).2
          (visit_atom (.assume (.unexpr notRef "!" cond cond.hint)) cur0
            (visit_stmts then_stmts
              (visit_atom (.assume cond) cur0 s0).2
              (visit_atom (.assume cond) cur0 s0).1).1).1).1
          .split_join false none).1) := by
    simp only [split_of_if, visit_stmts]
  set A1 := visit_atom (Atom.assume cond) cur0 s0 with hA1def
  set R1 := visit_stmts then_stmts A1.2 A1.1 with hR1def
  set A2 := visit_atom
    (Atom.assume (Expr.unexpr notRef "!" cond cond.hint)) cur0 R1.1
    with hA2def
  set R2 := visit_stmts else_stmts A2.2 A2.1 with hR2def
  set JB := build_node R2.1 NPfx.split_join false none with hJBdef
  have hA1ok := visit_atom_ok (Atom.assume cond) cur0 s0
  have hA2ok := visit_atom_ok
    (Atom.assume (Expr.unexpr notRef "!" cond cond.hint)) cur0 R1.1
  have hthen := visit_stmts_ok then_stmts A1.2 A1.1
  have helse := visit_stmts_ok else_stmts A2.2 A2.1
  have hsub2n : ∀ x ∈ R1.1.nodes, x ∈ A2.1.nodes := fun x hx =>
    List.mem_append.mpr (Or.inl hx)
  have hsub4n : ∀ x ∈ R2.1.nodes, x ∈
      (register_and_link JB.2 [R1.2, R2.2] JB.1).nodes := fun x hx =>
    List.mem_append.mpr (Or.inl hx)
  have hnode_chain : ∀ x ∈ A1.1.nodes, x ∈
      (register_and_link JB.2 [R1.2, R2.2] JB.1).nodes := fun x hx =>
    hsub4n x (helse.1.1 x (hsub2n x (hthen.1.1 x hx)))
  have hsub2e : ∀ e ∈ R1.1.edges, e ∈ A2.1.edges := fun e he =>
    List.mem_append.mpr (Or.inl he)
  have hsub4e : ∀ e ∈ R2.1.edges, e ∈
      (register_and_link JB.2 [R1.2, R2.2] JB.1).edges := fun e he =>
    List.mem_append.mpr (Or.inl he)
  have hedge_chain : ∀ e ∈ R1.1.edges, e ∈
      (register_and_link JB.2 [R1.2, R2.2] JB.1).edges := fun e he =>
    hsub4e e (helse.1.2.1 e (hsub2e e he))
  have hida1 : A1.2.id = s0.next_id := hA1ok.2.2.1
  have hida2 : A2.2.id = R1.1.next_id := hA2ok.2.2.1
  have hn1 : A1.1.next_id = s0.next_id + 1 := hA1ok.2.2.2.1
  have hn2 : A1.1.next_id ≤ R1.1.next_id := hthen.1.2.2.1
  refine ⟨A1.2, A2.2, R1.2, R2.2, JB.1, ?_, ?_, ?_, ?_,
    hA1ok.2.2.2.2.2, hA2ok.2.2.2.2.2, ?_, ?_, ?_, ?_, ?_, ?_, rfl, rfl⟩
  · rw [key]
    exact hnode_chain _ hA1ok.2.1
  · rw [key]
    exact hsub4n _ (helse.1.1 _ (List.mem_append.mpr
      (Or.inr (List.mem_singleton.mpr rfl))))
  · rw [key]
    show _ ∈ _ ++ [JB.1]
    simp
  · intro hcontra
    have hids := congrArg CNode.id hcontra
    omega
  · rw [key]
    exact hedge_chain _ (hthen.1.2.1 _ hA1ok.2.2.2.2.1)
  · rw [key]
    exact hsub4e _ (helse.1.2.1 _ hA2ok.2.2.2.2.1)
  · rw [key]
    exact (visit_stmts_reach then_stmts A1.2 A1.1 _ hedge_chain).2
  · rw [key]
    refine (visit_stmts_reach else_stmts A2.2 A2.1 _ ?_).2
    exact hsub4e
  · rw [key]
    show _ ∈ _ ++ _
    refine List.mem_append.mpr (Or.inr ?_)
    simp
  · rw [key]
    show _ ∈ _ ++ _
    refine List.mem_append.mpr (Or.inr ?_)
    simp

theorem visit_program_nodes (stmts : List Stmt) :
    (visit_program stmts).nodes =
      (visit_stmts stmts start_node
        (build_node ⟨[], [], fun _ => 0, 0⟩ NPfx.start false none).2).1.nodes
        ++ [start_node] := rfl

theorem visit_program_edges (stmts : List Stmt) :
    (visit_program stmts).edges =
      (visit_stmts stmts start_node
        (build_node ⟨[], [], fun _ => 0, 0⟩ NPfx.start false
          none).2).1.edges := rfl

/-! ### Claim C5 -/

/-- C5.  Every loop statement of the program is lowered to a
widening-point `loop_start` entry node with an edge from some preceding
node, the loop body lowered from the entry down to a body end node with
a back-edge to the entry, and an edge from the entry to a synthesized
`loop_join` exit node — all present in the graph built by
`visit_program`; moreover, a node of that graph has
`is_widening_point = true` exactly when it is such a loop-entry
(`loop_start`) node. -/
theorem c5_loop_entry_widening :
    ∀ stmts : List Stmt,
      (∀ body, OccursIn (.loop body) stmts →
        ∃ pred w bend j,
          w ∈ (visit_program stmts).nodes ∧
          j ∈ (visit_program stmts).nodes ∧
          w.is_widening_point = true ∧ w.pfx = NPfx.loop_start ∧
          w.node = none ∧
          CEdge.mk pred w ∈ (visit_program stmts).edges ∧
          Reach (visit_program stmts).edges w bend ∧
          CEdge.mk bend w ∈ (visit_program stmts).edges ∧
          CEdge.mk w j ∈ (visit_program stmts).edges ∧
          j.pfx = NPfx.loop_join ∧ j.node = none) ∧
      (∀ n ∈ (visit_program stmts).nodes,
        (n.is_widening_point = true ↔ n.pfx = NPfx.loop_start)) := by
  intro stmts
  constructor
  · intro body hocc
    obtain ⟨cur0, s0, hemb⟩ := exec_occurs hocc start_node
      (build_node ⟨[], [], fun _ => 0, 0⟩ NPfx.start false none).2
    obtain ⟨w, bend, j, hw, hj, hwp, hwpfx, hwnode, hcw, hreach, hbw,
      hwj, hjp, hjn⟩ := loop_run_shape body cur0 s0
    refine ⟨cur0, w, bend, j, ?_, ?_, hwp, hwpfx, hwnode, ?_, ?_, ?_, ?_,
      hjp, hjn⟩
    · rw [visit_program_nodes]
      exact List.mem_append.mpr (Or.inl (hemb.1 w hw))
    · rw [visit_program_nodes]
      exact List.mem_append.mpr (Or.inl (hemb.1 j hj))
    · rw [visit_program_edges]
      exact hemb.2 _ hcw
    · rw [visit_program_edges]
      exact Reach.mono hemb.2 hreach
    · rw [visit_program_edges]
      exact hemb.2 _ hbw
    · rw [visit_program_edges]
      exact hemb.2 _ hwj
  · intro n hn
    rw [visit_program_nodes] at hn
    rcases List.mem_append.mp hn with hn2 | hn2
    · rcases (visit_stmts_ok stmts start_node
          (build_node ⟨[], [], fun _ => 0, 0⟩ NPfx.start false
            none).2).1.2.2.2.1 n hn2 with hn3 | ⟨-, -, hwpf, -⟩
      · exact absurd (show n ∈ ([] : List CNode) from hn3) (by simp)
      · exact hwpf
    · rcases List.mem_singleton.mp hn2 with rfl
      exact Iff.intro (fun h => nomatch h) (fun h => nomatch h)

/-! ### Claim C3 -/

/-- C3.  For every conditional as the frontend lowers it (a split
statement whose branches are seeded with assumes of the condition and of
its negation), the CFG built by `visit_program` contains two distinct
assume nodes — one holding the assume of the condition, the other the
assume of its `!`-negation — both with an edge from the statement's
predecessor node, the two branch lowerings reaching end nodes from those
assumes, and both branch ends linked into one synthesized `split_join`
node. -/
theorem c3_split_branches_assume_and_join :
    ∀ (stmts : List Stmt) (notRef : Nat) (cond : Expr)
      (then_stmts else_stmts : List Stmt),
      OccursIn (split_of_if notRef cond then_stmts else_stmts) stmts →
      ∃ pred a1 a2 e1 e2 j,
        a1 ∈ (visit_program stmts).nodes ∧
        a2 ∈ (visit_program stmts).nodes ∧
        j ∈ (visit_program stmts).nodes ∧
        a1 ≠ a2 ∧
        a1.node = some (.assume cond) ∧
        a2.node = some (.assume (.unexpr notRef "!" cond cond.hint)) ∧
        CEdge.mk pred a1 ∈ (visit_program stmts).edges ∧
        CEdge.mk pred a2 ∈ (visit_program stmts).edges ∧
        Reach (visit_program stmts).edges a1 e1 ∧
        Reach (visit_program stmts).edges a2 e2 ∧
        CEdge.mk e1 j ∈ (visit_program stmts).edges ∧
        CEdge.mk e2 j ∈ (visit_program stmts).edges ∧
        j.pfx = NPfx.split_join ∧ j.node = none := by
  intro stmts notRef cond then_stmts else_stmts hocc
  obtain ⟨cur0, s0, hemb⟩ := exec_occurs hocc start_node
    (build_node ⟨[], [], fun _ => 0, 0⟩ NPfx.start false none).2
  obtain ⟨a1, a2, e1, e2, j, h1, h2, h3, hne, hn1, hn2, hc1, hc2, hr1,
    hr2, he1, he2, hjp, hjn⟩ :=
    split_run_shape notRef cond then_stmts else_stmts cur0 s0
  refine ⟨cur0, a1, a2, e1, e2, j, ?_, ?_, ?_, hne, hn1, hn2, ?_, ?_,
    ?_, ?_, ?_, ?_, hjp, hjn⟩
  · rw [visit_program_nodes]
    exact List.mem_append.mpr (Or.inl (hemb.1 a1 h1))
  · rw [visit_program_nodes]
    exact List.mem_append.mpr (Or.inl (hemb.1 a2 h2))
  · rw [visit_program_nodes]
    exact List.mem_append.mpr (Or.inl (hemb.1 j h3))
  · rw [visit_program_edges]
    exact hemb.2 _ hc1
  · rw [visit_program_edges]
    exact hemb.2 _ hc2
  · rw [visit_program_edges]
    exact Reach.mono hemb.2 hr1
  · rw [visit_program_edges]
    exact Reach.mono hemb.2 hr2
  · rw [visit_program_edges]
    exact hemb.2 _ he1
  · rw [visit_program_edges]
    exact hemb.2 _ he2

theorem exG_read_eval : visit_program [Stmt.atom (.read wId)] =
    ⟨[⟨1, NPfx.read, 0, false, some (.read wId)⟩, start_node],
     [⟨start_node, ⟨1, NPfx.read, 0, false, some (.read wId)⟩⟩]⟩ := by
  simp only [visit_program, visit_stmts, visit_atom]
  rfl

theorem exG_loop_eval : visit_program [Stmt.loop []] =
    ⟨[⟨1, NPfx.loop_start, 0, true, none⟩,
      ⟨2, NPfx.loop_join, 0, false, none⟩, start_node],
     [⟨start_node, ⟨1, NPfx.loop_start, 0, true, none⟩⟩,
      ⟨⟨1, NPfx.loop_start, 0, true, none⟩,
        ⟨1, NPfx.loop_start, 0, true, none⟩⟩,
      ⟨⟨1, NPfx.loop_start, 0, true, none⟩,
        ⟨2, NPfx.loop_join, 0, false, none⟩⟩]⟩ := by
  simp only [visit_program, visit_stmts, visit_atom]
  rfl

/-- C6, witness: in the one-statement program the read node is reachable
from the start node and the start node has no incoming edge. -/
theorem c6_single_entry_all_reachable_witness :
    Reach (visit_program [Stmt.atom (.read wId)]).edges start_node
      ⟨1, NPfx.read, 0, false, some (.read wId)⟩ ∧
    ¬ HasInc (visit_program [Stmt.atom (.read wId)]).edges start_node := by
  constructor
  · refine (c6_single_entry_all_reachable [Stmt.atom (.read wId)]).2.2 _ ?_
    rw [exG_read_eval]
    simp
  · refine ((c6_single_entry_all_reachable [Stmt.atom (.read wId)]).2.1
      start_node ?_).mpr rfl
    rw [exG_read_eval]
    simp

/-- C5, witness: the one-loop program exhibits the widening-point loop
entry with its back-edge and exit join, and the loop-entry node's
widening flag agrees with its prefix. -/
theorem c5_loop_entry_widening_witness :
    (∃ pred w bend j,
      w ∈ (visit_program [Stmt.loop []]).nodes ∧
      j ∈ (visit_program [Stmt.loop []]).nodes ∧
      w.is_widening_point = true ∧ w.pfx = NPfx.loop_start ∧
      w.node = none ∧
      CEdge.mk pred w ∈ (visit_program [Stmt.loop []]).edges ∧
      Reach (visit_program [Stmt.loop []]).edges w bend ∧
      CEdge.mk bend w ∈ (visit_program [Stmt.loop []]).edges ∧
      CEdge.mk w j ∈ (visit_program [Stmt.loop []]).edges ∧
      j.pfx = NPfx.loop_join ∧ j.node = none) ∧
    ((⟨1, NPfx.loop_start, 0, true, none⟩ : CNode).is_widening_point =
        true ↔
      (⟨1, NPfx.loop_start, 0, true, none⟩ : CNode).pfx =
        NPfx.loop_start) := by
  constructor
  · exact (c5_loop_entry_widening [Stmt.loop []]).1 []
      ⟨Stmt.loop [], List.mem_singleton.mpr rfl, SubStmt.refl _⟩
  · refine (c5_loop_entry_widening [Stmt.loop []]).2
      ⟨1, NPfx.loop_start, 0, true, none⟩ ?_
    rw [exG_loop_eval]
    simp

/-- C3, witness: the one-conditional program exhibits the two seeded
assume branch heads and the single join. -/
theorem c3_split_branches_assume_and_join_witness :
    ∃ pred a1 a2 e1 e2 j,
      a1 ∈ (visit_program [split_of_if 9 (Expr.ident 0 none) [] []]).nodes ∧
      a2 ∈ (visit_program [split_of_if 9 (Expr.ident 0 none) [] []]).nodes ∧
      j ∈ (visit_program [split_of_if 9 (Expr.ident 0 none) [] []]).nodes ∧
      a1 ≠ a2 ∧
      a1.node = some (.assume (Expr.ident 0 none)) ∧
      a2.node = some (.assume (.unexpr 9 "!" (Expr.ident 0 none)
        (Expr.ident 0 none).hint)) ∧
      CEdge.mk pred a1 ∈
        (visit_program [split_of_if 9 (Expr.ident 0 none) [] []]).edges ∧
      CEdge.mk pred a2 ∈
        (visit_program [split_of_if 9 (Expr.ident 0 none) [] []]).edges ∧
      Reach (visit_program [split_of_if 9 (Expr.ident 0 none) [] []]).edges
        a1 e1 ∧
      Reach (visit_program [split_of_if 9 (Expr.ident 0 none) [] []]).edges
        a2 e2 ∧
      CEdge.mk e1 j ∈
        (visit_program [split_of_if 9 (Expr.ident 0 none) [] []]).edges ∧
      CEdge.mk e2 j ∈
        (visit_program [split_of_if 9 (Expr.ident 0 none) [] []]).edges ∧
      j.pfx = NPfx.split_join ∧ j.node = none :=
  c3_split_branches_assume_and_join
    [split_of_if 9 (Expr.ident 0 none) [] []] 9 (Expr.ident 0 none) [] []
    ⟨split_of_if 9 (Expr.ident 0 none) [] [],
      List.mem_singleton.mpr rfl, SubStmt.refl _⟩

end LalCheckers
